import Mathlib

/-!
Verification development for `torch/csrc/jit/passes/create_autodiff_subgraphs.cpp`.

The pass partitions a block-structured dataflow IR into `prim::DifferentiableGraph`
group nodes.  We embed the node/block data model and the pass's functions
(`buildWorkBlocks`, `scanNode`, `tryMerge`, `unfuseAliasedOutputs`,
`cleanupSubgraphs`, `inlineIfTooSmall`, `AddRequiresGradToDifferentiableGraph`, ...)
as executable Lean definitions, with the external collaborators (AliasDb,
`isDifferentiable`, `SubgraphUtils`, CSE) modelled from the spec as oracles or
small concrete functions, and prove the spec's claims about them.

Machine integers: the C++ sizes/counters are `size_t`; all quantities here are
small non-negative counts, modelled as `Nat` (no overflow is reachable for them).
-/

namespace AutodiffSubgraphs

/-- Operation identifiers that the pass inspects by name: `prim::DifferentiableGraph`,
`prim::Constant`, `prim::profile`, the view operations listed in `isViewOp`,
and all remaining kinds collapsed to `Op name`. -/
inductive NodeKind where
  | DifferentiableGraph
  | Constant
  | Profile
  | View
  | ViewAs
  | Reshape
  | ReshapeAs
  | Transpose
  | Expand
  | ExpandAs
  | Op (name : Nat)
deriving DecidableEq, Repr

/-- A node of the IR: unique id, kind, side-effect flag,
the answer of the external `isDifferentiable` oracle for this node (`diff`),
input and output value ids, the owned subgraph (non-empty only for
`DifferentiableGraph` nodes) and the owned child blocks (control flow).
A block is its ordered interior node list; the parameter/return sentinel
nodes are represented implicitly (as `Option.none` bounds where needed). -/
inductive Node where
  | mk (id : Nat) (kind : NodeKind) (sideEffects : Bool) (diff : Bool)
       (inputs : List Nat) (outputs : List Nat)
       (subgraph : List Node) (blocks : List (List Node))
deriving Repr

abbrev Block := List Node

def Node.id : Node → Nat
  | .mk i _ _ _ _ _ _ _ => i

def Node.kind : Node → NodeKind
  | .mk _ k _ _ _ _ _ _ => k

def Node.sideEffects : Node → Bool
  | .mk _ _ s _ _ _ _ _ => s

def Node.diff : Node → Bool
  | .mk _ _ _ d _ _ _ _ => d

def Node.inputs : Node → List Nat
  | .mk _ _ _ _ i _ _ _ => i

def Node.outputs : Node → List Nat
  | .mk _ _ _ _ _ o _ _ => o

def Node.subgraph : Node → List Node
  | .mk _ _ _ _ _ _ g _ => g

def Node.blocks : Node → List Block
  | .mk _ _ _ _ _ _ _ b => b

@[simp] theorem Node.id_mk (i k s d is os g b) : (Node.mk i k s d is os g b).id = i := rfl
@[simp] theorem Node.kind_mk (i k s d is os g b) : (Node.mk i k s d is os g b).kind = k := rfl
@[simp] theorem Node.sideEffects_mk (i k s d is os g b) :
    (Node.mk i k s d is os g b).sideEffects = s := rfl
@[simp] theorem Node.diff_mk (i k s d is os g b) : (Node.mk i k s d is os g b).diff = d := rfl
@[simp] theorem Node.inputs_mk (i k s d is os g b) :
    (Node.mk i k s d is os g b).inputs = is := rfl
@[simp] theorem Node.outputs_mk (i k s d is os g b) :
    (Node.mk i k s d is os g b).outputs = os := rfl
@[simp] theorem Node.subgraph_mk (i k s d is os g b) :
    (Node.mk i k s d is os g b).subgraph = g := rfl
@[simp] theorem Node.blocks_mk (i k s d is os g b) :
    (Node.mk i k s d is os g b).blocks = b := rfl

/-- Replace the child blocks of a node (used by the recursive passes). -/
def Node.setBlocks : Node → List Block → Node
  | .mk i k s d is os g _, b => .mk i k s d is os g b

@[simp] theorem Node.id_setBlocks (n : Node) (b) : (n.setBlocks b).id = n.id := by
  cases n; rfl
@[simp] theorem Node.kind_setBlocks (n : Node) (b) : (n.setBlocks b).kind = n.kind := by
  cases n; rfl
@[simp] theorem Node.subgraph_setBlocks (n : Node) (b) :
    (n.setBlocks b).subgraph = n.subgraph := by cases n; rfl
@[simp] theorem Node.blocks_setBlocks (n : Node) (b) : (n.setBlocks b).blocks = b := by
  cases n; rfl
@[simp] theorem Node.inputs_setBlocks (n : Node) (b) :
    (n.setBlocks b).inputs = n.inputs := by cases n; rfl
@[simp] theorem Node.outputs_setBlocks (n : Node) (b) :
    (n.setBlocks b).outputs = n.outputs := by cases n; rfl
@[simp] theorem Node.sideEffects_setBlocks (n : Node) (b) :
    (n.setBlocks b).sideEffects = n.sideEffects := by cases n; rfl

/-- Modelled from the spec: `Node::notExecutedOp` lives in the IR layer, outside this
unit's source; per the spec, "no-op" nodes are the bookkeeping nodes that are never
executed — constants and type-profiling nodes. -/
def Node.notExecutedOp (n : Node) : Bool :=
  n.kind = .Constant || n.kind = .Profile

/-- `SubgraphSlicer::isViewOp`: the listed view-producing operations. -/
def isViewOp (n : Node) : Bool :=
  match n.kind with
  | .View | .ViewAs | .Reshape | .ReshapeAs | .Transpose | .Expand | .ExpandAs => true
  | _ => false

/-- `SubgraphSlicer::shouldConsiderForMerge`: group nodes are always candidates;
constants and view ops never are; otherwise defer to the external
`isDifferentiable` oracle, whose per-node answer is the `diff` field. -/
def shouldConsiderForMerge (n : Node) : Bool :=
  if n.kind = .DifferentiableGraph then true
  else if n.kind = .Constant then false
  else if isViewOp n then false
  else n.diff

def isGroup (n : Node) : Bool := n.kind = .DifferentiableGraph

/-!
## Gradient metadata propagation (`getProfileNodeRequiresGrad`,
`AddRequiresGradToDifferentiableGraph`)

This pass only looks at a finalized group through: its subgraph outputs (their
producing node's kind and their type) and the uses of the corresponding
outer-graph output values.  We embed exactly that view.
-/

/-- A type descriptor as the metadata pass sees it: a `TensorType` carrying an
optional gradient-requirement flag (`requiresGrad()`) plus its remaining fields
(collapsed into an opaque `meta` tag), or a non-tensor type. -/
inductive Ty where
  | tensor (requiresGrad : Option Bool) (meta : Nat)
  | nonTensor (tag : Nat)
deriving DecidableEq, Repr

/-- A use of a group-subgraph input value, as inspected by the one-level search in
`AddRequiresGradToDifferentiableGraph`: a `prim::profile` user carrying its
`profiled_type` attribute (`none` when the attribute is absent), or any other user. -/
inductive InnerUse where
  | profile (profiledType : Option Ty)
  | other (tag : Nat)
deriving DecidableEq, Repr

/-- A use of an outer-graph output value of the group node.  The source reads
`use.offset`, indexes the used group's subgraph inputs with it and walks that
value's uses; we model a `prim::DifferentiableGraph` use as directly carrying
the use list of that subgraph input. -/
inductive Use where
  | profile (profiledType : Option Ty)
  | diffGraph (inputUses : List InnerUse)
  | other (tag : Nat)
deriving DecidableEq, Repr

/-- One subgraph output of a finalized group, with the data the pass reads:
whether its producing node (inside the subgraph) is a `prim::profile` node,
its type descriptor, and the uses of the corresponding outer output value. -/
structure SubOutput where
  producedByProfile : Bool
  ty : Ty
  uses : List Use
deriving DecidableEq, Repr

/-- `getProfileNodeRequiresGrad`: from a profile node's `profiled_type` attribute
(`none` = attribute absent), `none` unless the profiled type is a tensor type,
otherwise that tensor type's optional requires-grad flag. -/
def getProfileNodeRequiresGrad : Option Ty → Option Bool
  | none => none
  | some (.nonTensor _) => none
  | some (.tensor rg _) => rg

/-- The inner loop of `AddRequiresGradToDifferentiableGraph`: scan the uses of a
group-subgraph input for a profile node with a determinate flag; first hit wins. -/
def searchInnerUses : List InnerUse → Option Bool
  | [] => none
  | .profile t :: rest =>
    match getProfileNodeRequiresGrad t with
    | some b => some b
    | none => searchInnerUses rest
  | .other _ :: rest => searchInnerUses rest

/-- The use-scanning loop of `AddRequiresGradToDifferentiableGraph`: walk the uses of
the outer output value in order; a profile use with a determinate flag is taken and
the loop breaks; a `DifferentiableGraph` use is searched one level through its
subgraph-input uses at that point, and a hit there also breaks the loop. -/
def searchUses : List Use → Option Bool
  | [] => none
  | .profile t :: rest =>
    match getProfileNodeRequiresGrad t with
    | some b => some b
    | none => searchUses rest
  | .diffGraph inner :: rest =>
    match searchInnerUses inner with
    | some b => some b
    | none => searchUses rest
  | .other _ :: rest => searchUses rest

/-- The per-output body of `AddRequiresGradToDifferentiableGraph`: skip outputs
produced by a profile node, non-tensor outputs, and outputs whose type already has
a requires-grad value; otherwise search the uses and, if a flag was found, set it
on the output's type (all other type fields unchanged). -/
def processOutput (o : SubOutput) : SubOutput :=
  if o.producedByProfile then o
  else
    match o.ty with
    | .nonTensor _ => o
    | .tensor (some _) _ => o
    | .tensor none m =>
      match searchUses o.uses with
      | some b => { o with ty := .tensor (some b) m }
      | none => o

/-- `AddRequiresGradToDifferentiableGraph`, over the subgraph-output view of one
finalized group node. -/
def AddRequiresGradToDifferentiableGraph (outs : List SubOutput) : List SubOutput :=
  outs.map processOutput

/-- Declarative flag of a single use: what the single-pass scan extracts from it. -/
def innerUseFlag : InnerUse → Option Bool
  | .profile t => getProfileNodeRequiresGrad t
  | .other _ => none

/-- Declarative flag of a single outer use: a profile use yields its determinate
flag; a group use yields the first determinate flag among its subgraph-input's
profile uses; other uses yield nothing. -/
def useFlag : Use → Option Bool
  | .profile t => getProfileNodeRequiresGrad t
  | .diffGraph inner => inner.findSome? innerUseFlag
  | .other _ => none

/-- The search as the claim's sentence describes it (two phases): first search all
uses for a type-profiling node that directly exposes the flag; only if none is
found directly, search one level through the group-node uses' inputs. -/
def claimedSearchUses (uses : List Use) : Option Bool :=
  match uses.findSome? (fun u => match u with
      | .profile t => getProfileNodeRequiresGrad t
      | _ => none) with
  | some b => some b
  | none =>
    uses.findSome? (fun u => match u with
      | .diffGraph inner => searchInnerUses inner
      | _ => none)

/-- The per-output behaviour as the claim states it: every tensor-typed output
lacking a gradient-requirement flag is searched (two-phase), the first flag found
is applied, and otherwise the output is unchanged. -/
def claimedProcessOutput (o : SubOutput) : SubOutput :=
  match o.ty with
  | .nonTensor _ => o
  | .tensor (some _) _ => o
  | .tensor none m =>
    match claimedSearchUses o.uses with
    | some b => { o with ty := .tensor (some b) m }
    | none => o

/-- The whole propagator as the claim describes it. -/
def claimedAddRequiresGrad (outs : List SubOutput) : List SubOutput :=
  outs.map claimedProcessOutput

theorem searchInnerUses_eq_findSome (l : List InnerUse) :
    searchInnerUses l = l.findSome? innerUseFlag := by
  induction l with
  | nil => rfl
  | cons u rest ih =>
    cases u with
    | profile t =>
      simp only [searchInnerUses, List.findSome?_cons, innerUseFlag]
      cases getProfileNodeRequiresGrad t <;> simp [ih]
    | other tag =>
      simp only [searchInnerUses, List.findSome?_cons, innerUseFlag, ih]

theorem searchUses_eq_findSome (l : List Use) :
    searchUses l = l.findSome? useFlag := by
  induction l with
  | nil => rfl
  | cons u rest ih =>
    cases u with
    | profile t =>
      simp only [searchUses, List.findSome?_cons, useFlag]
      cases getProfileNodeRequiresGrad t <;> simp [ih]
    | diffGraph inner =>
      simp only [searchUses, List.findSome?_cons, useFlag, searchInnerUses_eq_findSome]
      cases inner.findSome? innerUseFlag <;> simp [ih]
    | other tag =>
      simp only [searchUses, List.findSome?_cons, useFlag, ih]

/-- Concrete group output on which the claimed two-phase search and the code's
single interleaved pass disagree: the first use is another group whose input is
profiled with flag `false`; a later use is a direct profile with flag `true`.
The code takes `false` (group use encountered first); the claimed two-phase
search takes `true` (direct profile preferred). -/
def c3Output : SubOutput :=
  { producedByProfile := false
    ty := .tensor none 7
    uses := [ .diffGraph [.profile (some (.tensor (some false) 0))]
            , .profile (some (.tensor (some true) 0)) ] }

/-- Claim C3, counterexample: `AddRequiresGradToDifferentiableGraph` does not
implement the claimed "direct profile uses first, group-input search only if none
found directly" strategy: on `c3Output` the code assigns `requires_grad = false`
(from the group use scanned first) while the claimed search yields `true`. -/
theorem addRequiresGrad_not_two_phase :
    AddRequiresGradToDifferentiableGraph [c3Output] ≠ claimedAddRequiresGrad [c3Output] := by
  decide

/-- Claim C3 (amended): the propagator processes, for each subgraph output that is
tensor-typed, lacks a requires-grad flag, and is not itself produced by a profile
node, the uses of the corresponding outer output value in one in-order pass: a
direct profile use supplies its determinate flag, and a group-node use is searched
one level through its subgraph input's profile uses at that point in the scan; the
first flag found in this order is applied to the output's type, and if no use
yields a flag the output is left unchanged (which is not an error).  Outputs that
are profile-produced, non-tensor, or already flagged are left unchanged. -/
theorem addRequiresGrad_first_flag_in_use_order
    (outs : List SubOutput) (o : SubOutput) (i : Nat) (h : outs.get? i = some o) :
    ∃ r, (AddRequiresGradToDifferentiableGraph outs).get? i = some r ∧
      (o.producedByProfile = true → r = o) ∧
      (∀ t, o.ty = .nonTensor t → r = o) ∧
      (∀ b m, o.ty = .tensor (some b) m → r = o) ∧
      (∀ m, o.producedByProfile = false → o.ty = .tensor none m →
        (∀ b, o.uses.findSome? useFlag = some b → r = { o with ty := .tensor (some b) m }) ∧
        (o.uses.findSome? useFlag = none → r = o)) := by
  refine ⟨processOutput o, ?_, ?_, ?_, ?_, ?_⟩
  · simpa [AddRequiresGradToDifferentiableGraph] using
      congrArg (Option.map processOutput) h
  · intro hp; simp [processOutput, hp]
  · intro t ht; cases hp : o.producedByProfile <;> simp [processOutput, hp, ht]
  · intro b m ht; cases hp : o.producedByProfile <;> simp [processOutput, hp, ht]
  · intro m hp ht
    constructor
    · intro b hb
      simp [processOutput, hp, ht, searchUses_eq_findSome, hb]
    · intro hb
      simp [processOutput, hp, ht, searchUses_eq_findSome, hb]

/-- Witness for `addRequiresGrad_first_flag_in_use_order` at the concrete output
`c3Output` (index 0 of a singleton list). -/
theorem addRequiresGrad_first_flag_in_use_order_witness :
    [c3Output].get? 0 = some c3Output ∧
    (∃ r, (AddRequiresGradToDifferentiableGraph [c3Output]).get? 0 = some r ∧
      (c3Output.producedByProfile = true → r = c3Output) ∧
      (∀ t, c3Output.ty = .nonTensor t → r = c3Output) ∧
      (∀ b m, c3Output.ty = .tensor (some b) m → r = c3Output) ∧
      (∀ m, c3Output.producedByProfile = false → c3Output.ty = .tensor none m →
        (∀ b, c3Output.uses.findSome? useFlag = some b →
           r = { c3Output with ty := .tensor (some b) m }) ∧
        (c3Output.uses.findSome? useFlag = none → r = c3Output))) :=
  ⟨rfl, addRequiresGrad_first_flag_in_use_order [c3Output] c3Output 0 rfl⟩

/-- Claim C9: the metadata propagator never modifies an output that is
profile-produced, non-tensor, or already flagged; its only possible mutation is
setting the requires-grad flag of a previously unflagged tensor output (all other
type data preserved), and it changes nothing else about the output (nor the
output list's length). -/
theorem addRequiresGrad_frame
    (outs : List SubOutput) (o : SubOutput) (i : Nat) (h : outs.get? i = some o) :
    (AddRequiresGradToDifferentiableGraph outs).length = outs.length ∧
    ∃ r, (AddRequiresGradToDifferentiableGraph outs).get? i = some r ∧
      r.producedByProfile = o.producedByProfile ∧
      r.uses = o.uses ∧
      ((o.producedByProfile = true ∨ (∀ rg m, o.ty ≠ Ty.tensor rg m) ∨
          (∃ b m, o.ty = Ty.tensor (some b) m)) → r = o) ∧
      (r = o ∨ ∃ b m, o.ty = Ty.tensor none m ∧ r.ty = Ty.tensor (some b) m) := by
  have hget : (AddRequiresGradToDifferentiableGraph outs).get? i = some (processOutput o) := by
    simpa [AddRequiresGradToDifferentiableGraph] using
      congrArg (Option.map processOutput) h
  refine ⟨by simp [AddRequiresGradToDifferentiableGraph], processOutput o, hget, ?_, ?_, ?_, ?_⟩
  · cases hp : o.producedByProfile
    · rcases ht : o.ty with ⟨rg, m⟩ | t
      · rcases rg with _ | b
        · rcases hs : searchUses o.uses with _ | b <;> simp [processOutput, hp, ht, hs]
        · simp [processOutput, hp, ht]
      · simp [processOutput, hp, ht]
    · simp [processOutput, hp]
  · cases hp : o.producedByProfile
    · rcases ht : o.ty with ⟨rg, m⟩ | t
      · rcases rg with _ | b
        · rcases hs : searchUses o.uses with _ | b <;> simp [processOutput, hp, ht, hs]
        · simp [processOutput, hp, ht]
      · simp [processOutput, hp, ht]
    · simp [processOutput, hp]
  · rintro (hp | hnt | ⟨b, m, hbm⟩)
    · simp [processOutput, hp]
    · rcases ht : o.ty with ⟨rg, m⟩ | t
      · exact absurd ht (hnt _ _)
      · cases hp : o.producedByProfile <;> simp [processOutput, hp, ht]
    · cases hp : o.producedByProfile <;> simp [processOutput, hp, hbm]
  · cases hp : o.producedByProfile
    · rcases ht : o.ty with ⟨rg, m⟩ | t
      · rcases rg with _ | b
        · rcases hs : searchUses o.uses with _ | b
          · left; simp [processOutput, hp, ht, hs]
          · right; exact ⟨b, m, rfl, by simp [processOutput, hp, ht, hs]⟩
        · left; simp [processOutput, hp, ht]
      · left; simp [processOutput, hp, ht]
    · left; simp [processOutput, hp]

/-!
## The subgraph slicer: work blocks, merging, fixed point

The slicer mutates one block's interior node list.  The external AliasDb and the
alias relation are consumed as oracles on node/value ids; `SubgraphUtils`'
merge/unmerge operations are modelled from the spec (they live outside this
unit's source).  New C++ `Node` objects are modelled by a fresh-id counter.
-/

/-- The slicing state of one block: its interior node list (in positional order)
and the graph-wide fresh-id counter for newly created nodes. -/
structure BState where
  nodes : List Node
  fresh : Nat
deriving Repr

/-- Modelled from the spec: the external AliasDb is consumed as an oracle.
`canMove p c` is the (data-dependency part of the) answer of
`AliasDb::moveBeforeTopologicallyValid` for producer id `p` and consumer id `c`;
`mayAlias a b` is the alias relation on value ids used by the output-unfusing
operations. -/
structure Oracles where
  canMove : Nat → Nat → Bool
  mayAlias : Nat → Nat → Bool

/-- A work block, as stored by the C++ `WorkBlock` pair: exclusive begin/end bound
node ids; `none` stands for the parameter (begin) or return (end) sentinel. -/
structure WorkBlock where
  wbBegin : Option Nat
  wbEnd : Option Nat
deriving DecidableEq, Repr

/-- The backward scan of `SubgraphSlicer::buildWorkBlocks` (`rev` is the interior in
reverse order, i.e. scanned tail-to-head): accumulate the candidate count; at every
side-effecting node emit a work block bounded by it and the previous boundary iff
the count (which includes the side-effecting node itself) meets the threshold, and
reset the count and move the boundary regardless; when the scan reaches the
parameter sentinel, flush a final work block iff the remaining count meets the
threshold. -/
def buildWorkBlocksGo (minSize : Nat) : List Node → Option Nat → Nat → List WorkBlock
  | [], endBound, count =>
    if minSize ≤ count then [⟨none, endBound⟩] else []
  | n :: rest, endBound, count =>
    let count' := count + (if shouldConsiderForMerge n then 1 else 0)
    if n.sideEffects then
      (if minSize ≤ count' then [⟨some n.id, endBound⟩] else []) ++
        buildWorkBlocksGo minSize rest (some n.id) 0
    else
      buildWorkBlocksGo minSize rest endBound count'

/-- `SubgraphSlicer::buildWorkBlocks`. -/
def buildWorkBlocks (minSize : Nat) (nodes : List Node) : List WorkBlock :=
  buildWorkBlocksGo minSize nodes.reverse none 0

/-- The node of this block producing value `v`, if any (`Value::node()` combined
with the `owningBlock() == block_` test of `sortReverseTopological`). -/
def producerOf (nodes : List Node) (v : Nat) : Option Node :=
  nodes.find? (fun n => n.outputs.contains v)

/-- Position of the producer of `v` in the block (`List.length` when absent);
`Node::isAfter` is position comparison. -/
def producerPos (nodes : List Node) (v : Nat) : Nat :=
  nodes.findIdx (fun n => n.outputs.contains v)

/-- `SubgraphSlicer::sortReverseTopological`: keep the inputs whose producing node
lives in this block and sort them so that a later-positioned producer comes first. -/
def sortReverseTopological (nodes : List Node) (inputs : List Nat) : List Nat :=
  (inputs.filter (fun v => (producerOf nodes v).isSome)).insertionSort
    (fun v w => producerPos nodes w ≤ producerPos nodes v)

/-- Modelled from the spec: `SubgraphUtils::createSingletonSubgraphAndUpdateAliasing`
replaces `n` by a new `DifferentiableGraph` node at the same position whose subgraph
holds exactly `n`, with the same boundary inputs and outputs and all use-sites
preserved; the new node is a fresh C++ object, so it gets a fresh id.  (Group nodes
are candidates by kind, so the new node's `diff` field is irrelevant; we set it to
`true`.) -/
def wrapSingleton (st : BState) (n : Node) : BState × Node :=
  let g : Node := .mk st.fresh .DifferentiableGraph false true n.inputs n.outputs [n] []
  (⟨st.nodes.map (fun m => if m.id = n.id then g else m), st.fresh + 1⟩, g)

/-- Modelled from the spec: `SubgraphUtils::mergeNodeIntoSubgraphAndUpdateAliasing`.
The producer (moved immediately before the consumer group by the validated reorder)
is folded into the consumer's subgraph: a plain producer is prepended, a group
producer is unioned (its subgraph nodes are spliced in); the group's boundary
inputs become the producer's inputs followed by the consumer's inputs not produced
by the producer (deduplicated); producer outputs still used by other nodes of the
block stay boundary outputs; the producer node disappears from the block. -/
def mergeNodeIntoSubgraph (st : BState) (producer consumer : Node) : BState × Node :=
  let spliced := if producer.kind = .DifferentiableGraph then producer.subgraph else [producer]
  let c : Node := .mk consumer.id .DifferentiableGraph consumer.sideEffects consumer.diff
      ((producer.inputs ++
          consumer.inputs.filter (fun v => !producer.outputs.contains v)).eraseDups)
      (producer.outputs.filter (fun o => st.nodes.any (fun m =>
          m.id ≠ producer.id && m.id ≠ consumer.id && m.inputs.contains o)) ++
        consumer.outputs)
      (spliced ++ consumer.subgraph) consumer.blocks
  (⟨(st.nodes.filter (fun m => m.id ≠ producer.id)).map
      (fun m => if m.id = consumer.id then c else m), st.fresh⟩, c)

/-- Modelled from the spec: `AliasDb::moveBeforeTopologicallyValid(producer,
consumer)` is the oracle's answer, except that a side-effecting node can never be
reordered (spec I1/I4: side-effect order is always respected). -/
def canMoveBeforeTopologicallyValid (O : Oracles) (producer consumer : Node) : Bool :=
  O.canMove producer.id consumer.id && !producer.sideEffects

/-- `SubgraphSlicer::tryMerge`: merge `producer` into the group `consumer` iff the
producer passes the candidacy filter and AliasDb validates the move; on failure
nothing happens and nothing is returned. -/
def tryMerge (O : Oracles) (st : BState) (consumer producer : Node) :
    Option (BState × Node) :=
  if shouldConsiderForMerge producer && canMoveBeforeTopologicallyValid O producer consumer
  then some (mergeNodeIntoSubgraph st producer consumer)
  else none

/-- The input-scanning loop of `scanNode`: try each candidate input's producer in
order; the first successful merge wins, and a failed candidate just moves the loop
to the next candidate. -/
def mergeFirst (O : Oracles) (st : BState) (consumer : Node) :
    List Nat → Option (BState × Node)
  | [] => none
  | v :: rest =>
    match producerOf st.nodes v with
    | none => mergeFirst O st consumer rest
    | some p =>
      match tryMerge O st consumer p with
      | some r => some r
      | none => mergeFirst O st consumer rest

/-- Helper of `prevIdOf`: walk the list remembering the previous node's id. -/
def prevIdGo (target : Nat) (prev : Option Nat) : List Node → Option Nat
  | [] => none
  | n :: rest => if n.id = target then prev else prevIdGo target (some n.id) rest

/-- The id of the node immediately before node `target` in the block (`none` = the
parameter sentinel); this is the reverse iterator's increment. -/
def prevIdOf (nodes : List Node) (target : Nat) : Option Nat :=
  prevIdGo target none nodes

/-- The wrapping step of `scanNode`: an already-grouped consumer is kept, any other
candidate is wrapped alone into a new singleton group node. -/
def ensureGroup (st : BState) (cur : Node) : BState × Node :=
  if cur.kind = .DifferentiableGraph then (st, cur) else wrapSingleton st cur

/-- `SubgraphSlicer::scanNode`: if the visited node is a merge candidate, wrap it
into a singleton group unless it already is one, then try to merge the producers of
its inputs (restricted to this block, in reverse topological order); on the first
success the sweep resumes at the group node and a change is reported; otherwise the
cursor advances to the group's predecessor. -/
def scanNode (O : Oracles) (st : BState) (cur : Node) : BState × Option Nat × Bool :=
  if shouldConsiderForMerge cur then
    let p := ensureGroup st cur
    let st1 := p.1
    let g := p.2
    match mergeFirst O st1 g (sortReverseTopological st1.nodes g.inputs) with
    | some (st2, g') => (st2, some g'.id, true)
    | none => (st1, prevIdOf st1.nodes g.id, false)
  else
    (st, prevIdOf st.nodes cur.id, false)

/-- One run of `buildupSubgraphs`' inner iterator loop over a work block, driven by
fuel: visit the node under the cursor, follow the iterator `scanNode` returns, stop
on reaching the begin bound (or the parameter sentinel).  Returns the state, whether
any change occurred, and the ids of the visited nodes (the instrumentation used to
state the sweep-span claims). -/
def sweepLoop (O : Oracles) : Nat → BState → Option Nat → Option Nat →
    Option (BState × Bool × List Nat)
  | 0, _, _, _ => none
  | fuel + 1, st, cursor, beginB =>
    if cursor = beginB then some (st, false, [])
    else
      match cursor with
      | none => some (st, false, [])
      | some x =>
        match st.nodes.find? (fun n => n.id = x) with
        | none => some (st, false, [])
        | some cur =>
          let r := scanNode O st cur
          match sweepLoop O fuel r.1 r.2.1 beginB with
          | none => none
          | some (st'', ch2, vs) => some (st'', r.2.2 || ch2, x :: vs)

/-- The initial cursor of a work block's sweep: the end-bound node itself
(`workblock.end()->reverseIterator()` dereferences to the end bound).  When the end
bound is the return sentinel, the first interior node visited is the block's last
node (visiting the return sentinel itself is a no-op: it is never a candidate). -/
def startCursor (nodes : List Node) : Option Nat → Option Nat
  | some e => some e
  | none => nodes.getLast?.map Node.id

/-- The per-work-block fixed point of `buildupSubgraphs`: repeat full sweeps of the
work block while any change occurred. -/
def workblockLoop (O : Oracles) : Nat → BState → WorkBlock → Option BState
  | 0, _, _ => none
  | fuel + 1, st, wb =>
    match sweepLoop O (fuel + 1) st (startCursor st.nodes wb.wbEnd) wb.wbBegin with
    | none => none
    | some (st', changed, _) =>
      if changed then workblockLoop O fuel st' wb else some st'

/-- The work-block phase of `buildupSubgraphs` on one block: the work blocks are
built once, up front, then each is driven to its fixed point in emission order. -/
def buildupBlockPhase (O : Oracles) (fuel minSize : Nat) (st : BState) : Option BState :=
  (buildWorkBlocks minSize st.nodes).foldlM (fun s wb => workblockLoop O fuel s wb) st

mutual

/-- `SubgraphSlicer::buildupSubgraphs`: drive this block's work blocks to their
fixed points, then recurse into the child blocks of the (post-merge) nodes.  The
fresh-id counter is threaded through; fuel drives every recursion. -/
def buildupSubgraphs (O : Oracles) (minSize : Nat) : Nat → BState → Option BState
  | 0, _ => none
  | fuel + 1, st => do
    let st1 ← buildupBlockPhase O (fuel + 1) minSize st
    let r ← buildupChildren O minSize fuel st1.nodes st1.fresh
    pure ⟨r.1, r.2⟩

/-- Recursion of `buildupSubgraphs` into the child blocks of each node of the
processed block. -/
def buildupChildren (O : Oracles) (minSize : Nat) : Nat → List Node → Nat →
    Option (List Node × Nat)
  | 0, _, _ => none
  | _ + 1, [], fr => some ([], fr)
  | fuel + 1, n :: rest, fr => do
    let rb ← buildupBlocks O minSize fuel n.blocks fr
    let rr ← buildupChildren O minSize fuel rest rb.2
    pure (n.setBlocks rb.1 :: rr.1, rr.2)

/-- Recursion of `buildupSubgraphs` over one node's list of child blocks. -/
def buildupBlocks (O : Oracles) (minSize : Nat) : Nat → List Block → Nat →
    Option (List Block × Nat)
  | 0, _, _ => none
  | _ + 1, [], fr => some ([], fr)
  | fuel + 1, b :: rest, fr => do
    let st' ← buildupSubgraphs O minSize fuel ⟨b, fr⟩
    let rr ← buildupBlocks O minSize fuel rest st'.fresh
    pure (st'.nodes :: rr.1, rr.2)

end

/-!
## AliasUnfuser, CSE, SizeFilter/Cleanup, and the whole pipeline
-/

/-- Replace the inputs of a node. -/
def Node.setInputs : Node → List Nat → Node
  | .mk i k s d _ os g b, is => .mk i k s d is os g b

/-- Replace the outputs of a node. -/
def Node.setOutputs : Node → List Nat → Node
  | .mk i k s d is _ g b, os => .mk i k s d is os g b

/-- Replace the subgraph of a node. -/
def Node.setSubgraph : Node → List Node → Node
  | .mk i k s d is os _ b, g => .mk i k s d is os g b

@[simp] theorem Node.id_setOutputs (n : Node) (os) : (n.setOutputs os).id = n.id := by
  cases n; rfl
@[simp] theorem Node.kind_setOutputs (n : Node) (os) : (n.setOutputs os).kind = n.kind := by
  cases n; rfl
@[simp] theorem Node.inputs_setOutputs (n : Node) (os) :
    (n.setOutputs os).inputs = n.inputs := by cases n; rfl
@[simp] theorem Node.outputs_setOutputs (n : Node) (os) :
    (n.setOutputs os).outputs = os := by cases n; rfl
@[simp] theorem Node.subgraph_setOutputs (n : Node) (os) :
    (n.setOutputs os).subgraph = n.subgraph := by cases n; rfl
@[simp] theorem Node.blocks_setOutputs (n : Node) (os) :
    (n.setOutputs os).blocks = n.blocks := by cases n; rfl
@[simp] theorem Node.id_setSubgraph (n : Node) (g) : (n.setSubgraph g).id = n.id := by
  cases n; rfl
@[simp] theorem Node.kind_setSubgraph (n : Node) (g) : (n.setSubgraph g).kind = n.kind := by
  cases n; rfl
@[simp] theorem Node.inputs_setSubgraph (n : Node) (g) :
    (n.setSubgraph g).inputs = n.inputs := by cases n; rfl
@[simp] theorem Node.outputs_setSubgraph (n : Node) (g) :
    (n.setSubgraph g).outputs = n.outputs := by cases n; rfl
@[simp] theorem Node.subgraph_setSubgraph (n : Node) (g) :
    (n.setSubgraph g).subgraph = g := by cases n; rfl
@[simp] theorem Node.blocks_setSubgraph (n : Node) (g) :
    (n.setSubgraph g).blocks = n.blocks := by cases n; rfl
@[simp] theorem Node.id_setInputs (n : Node) (is) : (n.setInputs is).id = n.id := by
  cases n; rfl
@[simp] theorem Node.kind_setInputs (n : Node) (is) : (n.setInputs is).kind = n.kind := by
  cases n; rfl
@[simp] theorem Node.inputs_setInputs (n : Node) (is) :
    (n.setInputs is).inputs = is := by cases n; rfl
@[simp] theorem Node.outputs_setInputs (n : Node) (is) :
    (n.setInputs is).outputs = n.outputs := by cases n; rfl

/-- Index of the first subgraph output that may alias another output of the same
list (pairs scanned in order), if any. -/
def firstAliasedPairIdx (A : Nat → Nat → Bool) (outs : List Nat) : Option Nat :=
  (List.range outs.length).find? (fun j =>
    (List.range j).any (fun i =>
      match outs.get? i, outs.get? j with
      | some a, some b => A a b || A b a
      | _, _ => false))

/-- Modelled from the spec: `SubgraphUtils::unmergeAliasedOutputs(n)`.  If two of
the group's subgraph outputs may alias each other, the offending (later) output is
split out of the group — it stops being a subgraph/boundary output and flows
through the boundary unmodified — and a change is reported; otherwise nothing
happens.  One offending output is handled per call (the surrounding pass loops to a
fixed point regardless). -/
def unmergeAliasedOutputs (A : Nat → Nat → Bool) (n : Node) : Node × Bool :=
  match firstAliasedPairIdx A n.outputs with
  | some j => (n.setOutputs (n.outputs.eraseIdx j), true)
  | none => (n, false)

/-- Index of the first subgraph output that may alias one of the subgraph's
inputs, if any. -/
def firstInputAliasedIdx (A : Nat → Nat → Bool) (ins outs : List Nat) : Option Nat :=
  (List.range outs.length).find? (fun j =>
    match outs.get? j with
    | some o => ins.any (fun i => A o i || A i o)
    | none => false)

/-- Modelled from the spec: `SubgraphUtils::unmergeOutputsAlisingInputs(n)` (sic).
Like `unmergeAliasedOutputs`, but the offending output is one aliasing a subgraph
input. -/
def unmergeOutputsAlisingInputs (A : Nat → Nat → Bool) (n : Node) : Node × Bool :=
  match firstInputAliasedIdx A n.inputs n.outputs with
  | some j => (n.setOutputs (n.outputs.eraseIdx j), true)
  | none => (n, false)

/-- One reverse sweep of `SubgraphSlicer::unfuseAliasedOutputs` over a block's
nodes: apply both unmerge operations to every group node, OR-ing the change flags
without short-circuiting. -/
def unfusePass (A : Nat → Nat → Bool) : List Node → List Node × Bool
  | [] => ([], false)
  | n :: rest =>
    let r := unfusePass A rest
    if isGroup n then
      let u1 := unmergeAliasedOutputs A n
      let u2 := unmergeOutputsAlisingInputs A u1.1
      (u2.1 :: r.1, r.2 || u1.2 || u2.2)
    else (n :: r.1, r.2)

/-- The fixed-point loop of `unfuseAliasedOutputs` on one block: repeat full
sweeps until a sweep makes no change. -/
def unfuseFixpoint (A : Nat → Nat → Bool) : Nat → List Node → Option (List Node)
  | 0, _ => none
  | fuel + 1, ns =>
    let r := unfusePass A ns
    if r.2 then unfuseFixpoint A fuel r.1 else some r.1

mutual

/-- `SubgraphSlicer::unfuseAliasedOutputs(b)`: stabilize this block, then recurse
into the child blocks of its nodes. -/
def unfuseAliasedOutputs (A : Nat → Nat → Bool) : Nat → List Node → Option (List Node)
  | 0, _ => none
  | fuel + 1, ns => do
    let ns1 ← unfuseFixpoint A (fuel + 1) ns
    unfuseChildren A fuel ns1

/-- Recursion of `unfuseAliasedOutputs` into each node's child blocks. -/
def unfuseChildren (A : Nat → Nat → Bool) : Nat → List Node → Option (List Node)
  | 0, _ => none
  | _ + 1, [] => some []
  | fuel + 1, n :: rest => do
    let bs ← unfuseBlocks A fuel n.blocks
    let rest' ← unfuseChildren A fuel rest
    pure (n.setBlocks bs :: rest')

/-- Recursion of `unfuseAliasedOutputs` over one node's child blocks. -/
def unfuseBlocks (A : Nat → Nat → Bool) : Nat → List Block → Option (List Block)
  | 0, _ => none
  | _ + 1, [] => some []
  | fuel + 1, b :: rest => do
    let b' ← unfuseAliasedOutputs A fuel b
    let rest' ← unfuseBlocks A fuel rest
    pure (b' :: rest')

end

/-- Value substitution built by CSE when a duplicate node is removed: the removed
node's outputs map positionally to the kept node's outputs. -/
def substVal (σ : List (Nat × Nat)) (v : Nat) : Nat :=
  match σ.find? (fun p => p.1 = v) with
  | some p => p.2
  | none => v

/-- Worker of the spec-modelled CSE: `kept` is the output so far (reversed), `σ`
the accumulated output substitution. -/
def cseGo (keepVals : List Nat) : List Node → List (Nat × Nat) → List Node → List Node
  | kept, _, [] => kept.reverse
  | kept, σ, n :: rest =>
    let n' := n.setInputs (n.inputs.map (substVal σ))
    let removable := !n'.sideEffects && !isGroup n' && n'.blocks.isEmpty &&
      n'.subgraph.isEmpty && n'.outputs.all (fun o => !keepVals.contains o)
    match if removable then
        kept.find? (fun m => m.kind == n'.kind && m.inputs == n'.inputs &&
          !m.sideEffects && !isGroup m && m.blocks.isEmpty && m.subgraph.isEmpty &&
          m.outputs.length == n'.outputs.length)
      else none with
    | some m => cseGo keepVals kept (σ ++ n'.outputs.zip m.outputs) rest
    | none => cseGo keepVals (n' :: kept) σ rest

/-- Modelled from the spec: `EliminateCommonSubexpression` ("Deduplicate: removes
structurally identical side-effect-free nodes, value-identity-preserving").  A node
is removed when an earlier kept node of the list has the same kind and (already
substituted) inputs; side-effecting nodes, group nodes and nodes owning child
blocks are never removed, and a node whose output is a protected boundary value
(`keepVals`) is kept so boundary value identity is preserved; uses of a removed
node's outputs are repointed to the kept node's outputs. -/
def cseList (keepVals : List Nat) (nodes : List Node) : List Node :=
  cseGo keepVals [] [] nodes

/-- The counting loop of `inlineIfTooSmall`: count the subgraph's non-no-op nodes,
answering `false` (do not inline) as soon as the count reaches the threshold. -/
def inlineIfTooSmallGo (minSize : Nat) (i : Nat) : List Node → Bool
  | [] => true
  | n :: rest =>
    let i' := i + (if n.notExecutedOp then 0 else 1)
    if minSize ≤ i' then false else inlineIfTooSmallGo minSize i' rest

/-- `SubgraphSlicer::inlineIfTooSmall`, decision part: `true` iff the group's
subgraph has fewer than `minSize` executed nodes, in which case the group is
dissolved (the splicing itself is done by `cleanupBlock` below). -/
def inlineIfTooSmall (minSize : Nat) (sub : List Node) : Bool :=
  inlineIfTooSmallGo minSize 0 sub

/-- The number of executed (non-no-op) nodes of a subgraph. -/
def execCount (sub : List Node) : Nat :=
  (sub.filter (fun n => !n.notExecutedOp)).length

/-- One block level of `SubgraphSlicer::cleanupSubgraphs`, processed tail-to-head:
for each group node, first run CSE on its subgraph (the boundary outputs are
protected values), then either dissolve it — too small: its subgraph contents
return to the block at its position and it is not collected — or keep and collect
it; the collected groups therefore appear tail-most first.  Spliced-in contents
are not revisited (the C++ iterator moves to the node saved before the splice). -/
def cleanupBlock (minSize : Nat) : List Node → List Node × List Node
  | [] => ([], [])
  | n :: rest =>
    let r := cleanupBlock minSize rest
    if isGroup n then
      let n' := n.setSubgraph (cseList n.outputs n.subgraph)
      if inlineIfTooSmall minSize n'.subgraph then
        (n'.subgraph ++ r.1, r.2)
      else
        (n' :: r.1, r.2 ++ [n'])
    else
      (n :: r.1, r.2)

mutual

/-- `SubgraphSlicer::cleanupSubgraphs`: process this block's nodes (collecting the
surviving groups, tail-most first), then recurse into the child blocks of every
remaining node (in forward order), appending their collected groups. -/
def cleanupSubgraphs (minSize : Nat) : Nat → List Node → Option (List Node × List Node)
  | 0, _ => none
  | fuel + 1, ns =>
    let r := cleanupBlock minSize ns
    match cleanupChildren minSize fuel r.1 with
    | none => none
    | some rc => some (rc.1, r.2 ++ rc.2)

/-- Recursion of `cleanupSubgraphs` into each node's child blocks. -/
def cleanupChildren (minSize : Nat) : Nat → List Node → Option (List Node × List Node)
  | 0, _ => none
  | _ + 1, [] => some ([], [])
  | fuel + 1, n :: rest => do
    let rb ← cleanupBlocks minSize fuel n.blocks
    let rr ← cleanupChildren minSize fuel rest
    pure (n.setBlocks rb.1 :: rr.1, rb.2 ++ rr.2)

/-- Recursion of `cleanupSubgraphs` over one node's child blocks. -/
def cleanupBlocks (minSize : Nat) : Nat → List Block → Option (List Block × List Node)
  | 0, _ => none
  | _ + 1, [] => some ([], [])
  | fuel + 1, b :: rest => do
    let rb ← cleanupSubgraphs minSize fuel b
    let rr ← cleanupBlocks minSize fuel rest
    pure (rb.1 :: rr.1, rb.2 ++ rr.2)

end

/-- `CreateAutodiffSubgraphs(graph, threshold)` =
`SubgraphSlicer(graph->block(), ...).run()` plus the collection of `diff_nodes`:
build up subgraphs, unfuse aliased outputs, clean up (collecting the surviving
groups tail-most first per block, parents before nested blocks), then one global
CSE over the top-level block.  `AddRequiresGradOnOutputNodes` runs last but only
mutates type metadata (modelled separately above) and does not change the returned
list.  `fresh` is the first unused node id of the input graph. -/
def CreateAutodiffSubgraphs (O : Oracles) (fuel minSize : Nat) (g : Block)
    (fresh : Nat) : Option (Block × List Node) := do
  let st1 ← buildupSubgraphs O minSize fuel ⟨g, fresh⟩
  let ns2 ← unfuseAliasedOutputs O.mayAlias fuel st1.nodes
  let r ← cleanupSubgraphs minSize fuel ns2
  pure (cseList [] r.1, r.2)

/-!
## Merging: `tryMerge` and `scanNode`
-/

/-- `tryMerge` applied to the producer of one candidate input value (the body of
`scanNode`'s input loop; an input without a producer in this block has no entry in
the sorted candidate list). -/
def tryMergeVal (O : Oracles) (st : BState) (consumer : Node) (v : Nat) :
    Option (BState × Node) :=
  match producerOf st.nodes v with
  | none => none
  | some p => tryMerge O st consumer p

theorem mergeFirst_eq_findSome (O : Oracles) (st : BState) (consumer : Node)
    (l : List Nat) :
    mergeFirst O st consumer l = l.findSome? (tryMergeVal O st consumer) := by
  induction l with
  | nil => rfl
  | cons v rest ih =>
    simp only [mergeFirst, List.findSome?_cons, tryMergeVal]
    cases hp : producerOf st.nodes v with
    | none => simpa [hp] using ih
    | some p =>
      cases htm : tryMerge O st consumer p with
      | none => simpa [hp, htm] using ih
      | some r => simp [hp, htm]

theorem tryMergeVal_consumer_id (O : Oracles) (st : BState) (consumer : Node)
    (v : Nat) (st2 : BState) (g' : Node)
    (h : tryMergeVal O st consumer v = some (st2, g')) : g'.id = consumer.id := by
  unfold tryMergeVal at h
  cases hp : producerOf st.nodes v with
  | none => simp [hp] at h
  | some p =>
    simp only [hp] at h
    unfold tryMerge at h
    cases hc : (shouldConsiderForMerge p && canMoveBeforeTopologicallyValid O p consumer) with
    | false => simp [hc] at h
    | true =>
      simp only [hc, if_true] at h
      have h2 := congrArg (fun r => r.2.id) (Option.some.inj h)
      simpa [mergeNodeIntoSubgraph] using h2.symm

/-- Claim C5: a producer is merged into a group exactly when it passes the
candidacy filter (`shouldConsiderForMerge`: already a group, or neither constant
nor view op and accepted by the differentiability oracle) and AliasDb validates
moving it immediately before the group; a successful `tryMerge` performs exactly
the modelled merge, and a failed one mutates nothing, returns nothing, and just
lets the input loop proceed to the next candidate (no error is raised). -/
theorem tryMerge_exactly_when_legal (O : Oracles) (st : BState)
    (consumer producer : Node) :
    ((tryMerge O st consumer producer).isSome ↔
      shouldConsiderForMerge producer = true ∧
        canMoveBeforeTopologicallyValid O producer consumer = true) ∧
    (∀ r, tryMerge O st consumer producer = some r →
      r = mergeNodeIntoSubgraph st producer consumer) ∧
    (tryMerge O st consumer producer = none →
      ∀ v rest, producerOf st.nodes v = some producer →
        mergeFirst O st consumer (v :: rest) = mergeFirst O st consumer rest) := by
  refine ⟨?_, ?_, ?_⟩
  · cases h1 : shouldConsiderForMerge producer <;>
      cases h2 : canMoveBeforeTopologicallyValid O producer consumer <;>
        simp [tryMerge, h1, h2]
  · intro r hr
    cases h1 : shouldConsiderForMerge producer <;>
      cases h2 : canMoveBeforeTopologicallyValid O producer consumer <;>
        simp [tryMerge, h1, h2] at hr <;> try exact hr.symm
  · intro hn v rest hp
    simp only [mergeFirst, hp, hn]

/-- Claim C6: `scanNode` on a merge candidate first wraps it into a singleton group
if it is not one already; the candidate inputs are the group's inputs restricted to
producers of this block, sorted so a later-positioned producer comes first; merges
are tried in that order and the first success ends the scan, reports a change, and
resumes the sweep at the (id-preserved) group node's position; if every candidate
fails the cursor advances to the group's predecessor; a non-candidate is skipped. -/
theorem scanNode_first_merge_wins (O : Oracles) (st : BState) (cur : Node) :
    (shouldConsiderForMerge cur = false →
      scanNode O st cur = (st, prevIdOf st.nodes cur.id, false)) ∧
    (shouldConsiderForMerge cur = true →
      (cur.kind ≠ .DifferentiableGraph →
        (ensureGroup st cur).2.kind = .DifferentiableGraph ∧
        (ensureGroup st cur).2.subgraph = [cur] ∧
        (ensureGroup st cur).2.inputs = cur.inputs ∧
        (ensureGroup st cur).2.outputs = cur.outputs ∧
        (ensureGroup st cur).1.nodes =
          st.nodes.map (fun m => if m.id = cur.id then (ensureGroup st cur).2 else m)) ∧
      (cur.kind = .DifferentiableGraph → ensureGroup st cur = (st, cur)) ∧
      (List.Perm (sortReverseTopological (ensureGroup st cur).1.nodes
          (ensureGroup st cur).2.inputs)
        (((ensureGroup st cur).2.inputs).filter
          (fun v => (producerOf (ensureGroup st cur).1.nodes v).isSome))) ∧
      (List.Sorted
        (fun v w => producerPos (ensureGroup st cur).1.nodes w ≤
          producerPos (ensureGroup st cur).1.nodes v)
        (sortReverseTopological (ensureGroup st cur).1.nodes
          (ensureGroup st cur).2.inputs)) ∧
      (∀ st2 g',
        (sortReverseTopological (ensureGroup st cur).1.nodes
            (ensureGroup st cur).2.inputs).findSome?
          (tryMergeVal O (ensureGroup st cur).1 (ensureGroup st cur).2) =
            some (st2, g') →
        scanNode O st cur = (st2, some g'.id, true) ∧
          g'.id = (ensureGroup st cur).2.id) ∧
      ((sortReverseTopological (ensureGroup st cur).1.nodes
          (ensureGroup st cur).2.inputs).findSome?
        (tryMergeVal O (ensureGroup st cur).1 (ensureGroup st cur).2) = none →
        scanNode O st cur =
          ((ensureGroup st cur).1,
            prevIdOf (ensureGroup st cur).1.nodes (ensureGroup st cur).2.id, false))) := by
  constructor
  · intro h; simp [scanNode, h]
  · intro h
    refine ⟨?_, ?_, ?_, ?_, ?_, ?_⟩
    · intro hk
      simp [ensureGroup, hk, wrapSingleton]
    · intro hk
      simp [ensureGroup, hk]
    · exact List.perm_insertionSort _ _
    · haveI : IsTotal Nat (fun v w => producerPos (ensureGroup st cur).1.nodes w ≤
          producerPos (ensureGroup st cur).1.nodes v) :=
        ⟨fun a b => Nat.le_total _ _⟩
      haveI : IsTrans Nat (fun v w => producerPos (ensureGroup st cur).1.nodes w ≤
          producerPos (ensureGroup st cur).1.nodes v) :=
        ⟨fun _ _ _ h1 h2 => Nat.le_trans h2 h1⟩
      exact List.sorted_insertionSort _ _
    · intro st2 g' hf
      refine ⟨?_, ?_⟩
      · simp only [scanNode, h, if_true, mergeFirst_eq_findSome]
        rw [hf]
      · obtain ⟨v, _, hv⟩ := List.exists_of_findSome?_eq_some hf
        exact tryMergeVal_consumer_id O _ _ v st2 g' hv
    · intro hf
      simp only [scanNode, h, if_true, mergeFirst_eq_findSome]
      rw [hf]

/-!
## Termination of the per-work-block fixed point (claim C7)

Measure: a merge destroys the producer node, so every changed sweep strictly
shrinks the block; within one sweep, the cursor's position strictly decreases at
every non-merging step.
-/

/-- Position of the first node with id `x` in a block (the length when absent). -/
def idxOfId (ns : List Node) (x : Nat) : Nat := ns.findIdx (fun n => n.id = x)

theorem findIdx_le_of_prop {α : Type} (p : α → Bool) (xs : List α) (j : Nat)
    (hj : j < xs.length) (h : p (xs.get ⟨j, hj⟩) = true) : xs.findIdx p ≤ j := by
  by_contra hc
  push_neg at hc
  exact absurd h (by simpa using List.not_of_lt_findIdx hc)

theorem prevIdGo_some_spec (target : Nat) :
    ∀ (rest : List Node) (p : Option Nat) (y : Nat),
      prevIdGo target p rest = some y →
      p = some y ∨ ∃ j, ∃ (hj : j < rest.length), (rest.get ⟨j, hj⟩).id = y ∧
        j < rest.findIdx (fun n => n.id = target) := by
  intro rest
  induction rest with
  | nil => intro p y h; cases h
  | cons m rest' ih =>
    intro p y h
    by_cases hm : m.id = target
    · left
      simpa [prevIdGo, hm] using h
    · simp only [prevIdGo, if_neg hm] at h
      rcases ih (some m.id) y h with h1 | ⟨j, hj, hy, hlt⟩
      · right
        refine ⟨0, by simp, by simpa using h1, ?_⟩
        simp [List.findIdx_cons, hm]
      · right
        refine ⟨j + 1, by simpa using hj, by simpa using hy, ?_⟩
        simp only [List.findIdx_cons]
        cases hdm : decide (m.id = target) with
        | true => exact absurd (of_decide_eq_true hdm) hm
        | false => simpa using hlt

theorem prevIdOf_lt (ns : List Node) (target y : Nat)
    (h : prevIdOf ns target = some y) : idxOfId ns y < idxOfId ns target := by
  rcases prevIdGo_some_spec target ns none y h with h1 | ⟨j, hj, hy, hlt⟩
  · cases h1
  · calc idxOfId ns y ≤ j := findIdx_le_of_prop _ ns j hj (by simpa using hy)
      _ < idxOfId ns target := hlt

@[simp] theorem ensureGroup_length (st : BState) (cur : Node) :
    (ensureGroup st cur).1.nodes.length = st.nodes.length := by
  unfold ensureGroup wrapSingleton
  by_cases hk : cur.kind = .DifferentiableGraph <;> simp [hk]

theorem tryMergeVal_length (O : Oracles) (st : BState) (g : Node) (v : Nat)
    (st2 : BState) (g' : Node) (h : tryMergeVal O st g v = some (st2, g')) :
    st2.nodes.length < st.nodes.length := by
  unfold tryMergeVal at h
  cases hp : producerOf st.nodes v with
  | none => simp [hp] at h
  | some p =>
    simp only [hp] at h
    have hmem : p ∈ st.nodes := List.mem_of_find?_eq_some hp
    unfold tryMerge at h
    cases hc : (shouldConsiderForMerge p && canMoveBeforeTopologicallyValid O p g) with
    | false => simp [hc] at h
    | true =>
      simp only [hc, if_true] at h
      have hst2 : st2 = (mergeNodeIntoSubgraph st p g).1 :=
        (congrArg Prod.fst (Option.some.inj h)).symm
      subst hst2
      simp only [mergeNodeIntoSubgraph, List.length_map]
      have hle := List.length_filter_le (fun m => m.id ≠ p.id) st.nodes
      rcases Nat.lt_or_ge ((st.nodes.filter (fun m => m.id ≠ p.id)).length)
          st.nodes.length with hlt | hge
      · exact hlt
      · exfalso
        have heq : (st.nodes.filter (fun m => m.id ≠ p.id)).length = st.nodes.length :=
          Nat.le_antisymm hle hge
        have := List.filter_length_eq_length.mp heq p hmem
        simp at this

/-- A `scanNode` visit that reports a change strictly shrinks the block (the merge
destroys the producer); one that does not, preserves the block length. -/
theorem scanNode_len (O : Oracles) (st : BState) (cur : Node) (st' : BState)
    (nx : Option Nat) (ch : Bool) (h : scanNode O st cur = (st', nx, ch)) :
    (ch = true → st'.nodes.length < st.nodes.length) ∧
    (ch = false → st'.nodes.length = st.nodes.length) := by
  unfold scanNode at h
  by_cases hc : shouldConsiderForMerge cur = true
  · simp only [hc, if_true] at h
    cases hm : mergeFirst O (ensureGroup st cur).1 (ensureGroup st cur).2
        (sortReverseTopological (ensureGroup st cur).1.nodes
          (ensureGroup st cur).2.inputs) with
    | none =>
      simp only [hm, Prod.mk.injEq] at h
      obtain ⟨h1, _, h3⟩ := h
      subst h1
      refine ⟨fun hch => ?_, fun _ => by simp⟩
      rw [← h3] at hch; cases hch
    | some r =>
      rcases r with ⟨st2, g'⟩
      simp only [hm, Prod.mk.injEq] at h
      obtain ⟨h1, _, h3⟩ := h
      subst h1
      refine ⟨fun _ => ?_, fun hch => ?_⟩
      · rw [mergeFirst_eq_findSome] at hm
        obtain ⟨v, _, hv⟩ := List.exists_of_findSome?_eq_some hm
        have hlt := tryMergeVal_length O _ _ v st2 g' hv
        have hel := ensureGroup_length st cur
        omega
      · rw [← h3] at hch; cases hch
  · simp only [Bool.not_eq_true] at hc
    simp only [hc, Bool.false_eq_true, if_false, Prod.mk.injEq] at h
    obtain ⟨h1, _, h3⟩ := h
    subst h1
    refine ⟨fun hch => ?_, fun _ => rfl⟩
    rw [← h3] at hch; cases hch

/-- A non-changing `scanNode` visit advances the iterator to the predecessor of a
node positioned no later than the visited node. -/
theorem scanNode_unchanged_spec (O : Oracles) (st : BState) (cur : Node)
    (st' : BState) (nx : Option Nat)
    (hmem : ∃ n ∈ st.nodes, n.id = cur.id)
    (h : scanNode O st cur = (st', nx, false)) :
    ∃ gid, idxOfId st'.nodes gid ≤ idxOfId st.nodes cur.id ∧
      nx = prevIdOf st'.nodes gid := by
  unfold scanNode at h
  by_cases hc : shouldConsiderForMerge cur = true
  · simp only [hc, if_true] at h
    cases hm : mergeFirst O (ensureGroup st cur).1 (ensureGroup st cur).2
        (sortReverseTopological (ensureGroup st cur).1.nodes
          (ensureGroup st cur).2.inputs) with
    | some r =>
      rcases r with ⟨st2, g'⟩
      simp only [hm, Prod.mk.injEq] at h
      obtain ⟨_, _, h3⟩ := h
      cases h3
    | none =>
      simp only [hm, Prod.mk.injEq] at h
      obtain ⟨h1, h2, _⟩ := h
      subst h1
      refine ⟨(ensureGroup st cur).2.id, ?_, h2.symm⟩
      unfold ensureGroup
      by_cases hk : cur.kind = .DifferentiableGraph
      · simp [hk]
      · simp only [hk, if_false]
        have hex : ∃ n ∈ st.nodes, (fun n => decide (n.id = cur.id)) n = true := by
          obtain ⟨n, hn, hid⟩ := hmem
          exact ⟨n, hn, by simp [hid]⟩
        have hk1 : st.nodes.findIdx (fun n => decide (n.id = cur.id)) <
            st.nodes.length := List.findIdx_lt_length_of_exists hex
        have hget : st.nodes[idxOfId st.nodes cur.id].id = cur.id := by
          have := @List.findIdx_getElem Node (fun n => decide (n.id = cur.id))
            st.nodes hk1
          simpa [idxOfId] using this
        have hmaplen : idxOfId st.nodes cur.id <
            (wrapSingleton st cur).1.nodes.length := by
          simpa [wrapSingleton, idxOfId] using hk1
        apply findIdx_le_of_prop _ _ (idxOfId st.nodes cur.id) hmaplen
        simp only [wrapSingleton] at hmaplen ⊢
        simp [hget]
  · simp only [Bool.not_eq_true] at hc
    simp only [hc, Bool.false_eq_true, if_false, Prod.mk.injEq] at h
    obtain ⟨h1, h2, _⟩ := h
    subst h1
    exact ⟨cur.id, le_refl _, h2.symm⟩

/-- One unfolding step of `sweepLoop` preserving success of the recursive call. -/
theorem sweepLoop_step (O : Oracles) (n : Nat) (st : BState) (x : Nat)
    (beginB : Option Nat) (cur : Node) (hne : ¬ (some x = beginB))
    (hfind : st.nodes.find? (fun n => n.id = x) = some cur)
    (hs : (sweepLoop O n (scanNode O st cur).1 (scanNode O st cur).2.1 beginB).isSome) :
    (sweepLoop O (n + 1) st (some x) beginB).isSome := by
  obtain ⟨r, hr⟩ := Option.isSome_iff_exists.mp hs
  rcases r with ⟨a, b, c⟩
  simp [sweepLoop, hne, hfind, hr]

/-- The inner sweep of a work block terminates: for every state and bounds there is
enough fuel.  Outer measure: the block length (a merge shrinks it); inner measure:
the cursor's position (every non-merging visit moves the cursor strictly towards
the head). -/
theorem sweepLoop_terminates (O : Oracles) :
    ∀ (L : Nat) (st : BState) (cursor beginB : Option Nat),
      st.nodes.length ≤ L → ∃ n, (sweepLoop O n st cursor beginB).isSome := by
  intro L
  induction L using Nat.strong_induction_on with
  | _ L IHL =>
    suffices h : ∀ (i : Nat) (st : BState) (cursor beginB : Option Nat),
        st.nodes.length ≤ L →
        (match cursor with | none => 0 | some x => idxOfId st.nodes x) ≤ i →
        ∃ n, (sweepLoop O n st cursor beginB).isSome by
      intro st cursor beginB hL
      refine h st.nodes.length st cursor beginB hL ?_
      cases cursor with
      | none => simp
      | some x => exact List.findIdx_le_length _
    intro i
    induction i using Nat.strong_induction_on with
    | _ i IHi =>
      intro st cursor beginB hL hidx
      by_cases hstop : cursor = beginB
      · exact ⟨1, by simp [sweepLoop, hstop]⟩
      cases cursor with
      | none => exact ⟨1, by simp [sweepLoop, hstop]⟩
      | some x =>
        cases hfind : st.nodes.find? (fun n => n.id = x) with
        | none => exact ⟨1, by simp [sweepLoop, hstop, hfind]⟩
        | some cur =>
          have hmem : ∃ n ∈ st.nodes, n.id = cur.id :=
            ⟨cur, List.mem_of_find?_eq_some hfind, rfl⟩
          have hcurx : cur.id = x := by
            have := List.find?_some hfind
            simpa using this
          rcases hsc : scanNode O st cur with ⟨st', nx, ch⟩
          cases ch with
          | true =>
            have hlt := (scanNode_len O st cur st' nx true hsc).1 rfl
            obtain ⟨n, hn⟩ := IHL st'.nodes.length (Nat.lt_of_lt_of_le hlt hL)
              st' nx beginB (le_refl _)
            refine ⟨n + 1, sweepLoop_step O n st x beginB cur hstop hfind ?_⟩
            rw [hsc]
            exact hn
          | false =>
            obtain ⟨gid, hgle, hnx⟩ := scanNode_unchanged_spec O st cur st' nx hmem hsc
            have hlen := (scanNode_len O st cur st' nx false hsc).2 rfl
            cases hP : prevIdOf st'.nodes gid with
            | none =>
              refine ⟨2, sweepLoop_step O 1 st x beginB cur hstop hfind ?_⟩
              rw [hsc]
              simp only [hnx, hP]
              by_cases hb : (none : Option Nat) = beginB <;> simp [sweepLoop, hb]
            | some y =>
              have hylt : idxOfId st'.nodes y < idxOfId st'.nodes gid :=
                prevIdOf_lt st'.nodes gid y hP
              have hyi : idxOfId st'.nodes y < i := by
                have hxi : idxOfId st.nodes x ≤ i := hidx
                have := hcurx ▸ hgle
                omega
              obtain ⟨n, hn⟩ := IHi (idxOfId st'.nodes y) hyi st' (some y) beginB
                (hlen ▸ hL) (le_refl _)
              refine ⟨n + 1, sweepLoop_step O n st x beginB cur hstop hfind ?_⟩
              rw [hsc]
              simpa [hnx, hP] using hn

/-- Fuel monotonicity of `sweepLoop`: success is stable under more fuel. -/
theorem sweepLoop_mono (O : Oracles) :
    ∀ (n m : Nat) (st : BState) (cursor beginB : Option Nat) (r : BState × Bool × List Nat),
      n ≤ m → sweepLoop O n st cursor beginB = some r →
      sweepLoop O m st cursor beginB = some r := by
  intro n
  induction n with
  | zero => intro m st cursor beginB r _ h; cases h
  | succ n ih =>
    intro m st cursor beginB r hnm h
    cases m with
    | zero => omega
    | succ m =>
      have hnm' : n ≤ m := Nat.le_of_succ_le_succ hnm
      by_cases hstop : cursor = beginB
      · simpa [sweepLoop, hstop] using h
      cases cursor with
      | none => simpa [sweepLoop, hstop] using h
      | some x =>
        cases hfind : st.nodes.find? (fun n => n.id = x) with
        | none =>
          simp only [sweepLoop, if_neg hstop, hfind] at h ⊢
          exact h
        | some cur =>
          simp only [sweepLoop, hstop, if_neg hstop, hfind] at h ⊢
          cases hrec : sweepLoop O n (scanNode O st cur).1 (scanNode O st cur).2.1
              beginB with
          | none => rw [hrec] at h; cases h
          | some r' =>
            rw [hrec] at h
            rw [ih m _ _ _ r' hnm' hrec]
            exact h

/-- A sweep never grows the block, and a changed sweep strictly shrinks it. -/
theorem sweepLoop_length (O : Oracles) :
    ∀ (n : Nat) (st : BState) (cursor beginB : Option Nat) (st' : BState)
      (ch : Bool) (vs : List Nat),
      sweepLoop O n st cursor beginB = some (st', ch, vs) →
      st'.nodes.length ≤ st.nodes.length ∧
        (ch = true → st'.nodes.length < st.nodes.length) := by
  intro n
  induction n with
  | zero => intro st cursor beginB st' ch vs h; cases h
  | succ n ih =>
    intro st cursor beginB st' ch vs h
    by_cases hstop : cursor = beginB
    · simp only [sweepLoop, hstop, if_true, Option.some.injEq, Prod.mk.injEq] at h
      obtain ⟨h1, h2, _⟩ := h
      subst h1
      exact ⟨le_refl _, fun hc => by rw [← h2] at hc; cases hc⟩
    cases cursor with
    | none =>
      simp only [sweepLoop, hstop, ite_false, Option.some.injEq, Prod.mk.injEq] at h
      obtain ⟨h1, h2, _⟩ := h
      subst h1
      exact ⟨le_refl _, fun hc => by rw [← h2] at hc; cases hc⟩
    | some x =>
      cases hfind : st.nodes.find? (fun n => n.id = x) with
      | none =>
        simp only [sweepLoop, hstop, ite_false, hfind, Option.some.injEq,
          Prod.mk.injEq] at h
        obtain ⟨h1, h2, _⟩ := h
        subst h1
        exact ⟨le_refl _, fun hc => by rw [← h2] at hc; cases hc⟩
      | some cur =>
        simp only [sweepLoop, hstop, ite_false, hfind] at h
        cases hrec : sweepLoop O n (scanNode O st cur).1 (scanNode O st cur).2.1
            beginB with
        | none => rw [hrec] at h; cases h
        | some r' =>
          rcases r' with ⟨a, b, c⟩
          rw [hrec] at h
          simp only [Option.some.injEq, Prod.mk.injEq] at h
          obtain ⟨h1, h2, _⟩ := h
          obtain ⟨ihle, ihlt⟩ := ih (scanNode O st cur).1 (scanNode O st cur).2.1
            beginB a b c hrec
          rcases hsc : scanNode O st cur with ⟨s1, n1, c1⟩
          obtain ⟨hslt, hseq⟩ := scanNode_len O st cur s1 n1 c1 hsc
          simp only [hsc] at ihle ihlt h2
          subst h1
          cases c1 with
          | true =>
            have h3 := hslt rfl
            have h4 : b = true → a.nodes.length < s1.nodes.length := ihlt
            refine ⟨by omega, fun _ => by omega⟩
          | false =>
            have heq := hseq rfl
            refine ⟨by omega, fun hc => ?_⟩
            rw [← h2] at hc
            simp only [Bool.false_or] at hc
            have h5 := ihlt hc
            omega

/-- Fuel monotonicity of the per-work-block fixed point. -/
theorem workblockLoop_mono (O : Oracles) :
    ∀ (n m : Nat) (st : BState) (wb : WorkBlock) (r : BState),
      n ≤ m → workblockLoop O n st wb = some r → workblockLoop O m st wb = some r := by
  intro n
  induction n with
  | zero => intro m st wb r _ h; cases h
  | succ n ih =>
    intro m st wb r hnm h
    cases m with
    | zero => omega
    | succ m =>
      have hnm' : n ≤ m := Nat.le_of_succ_le_succ hnm
      simp only [workblockLoop] at h ⊢
      cases hs : sweepLoop O (n + 1) st (startCursor st.nodes wb.wbEnd) wb.wbBegin with
      | none => rw [hs] at h; cases h
      | some r' =>
        rcases r' with ⟨st', changed, vs⟩
        rw [hs] at h
        rw [sweepLoop_mono O (n + 1) (m + 1) st _ _ _ (by omega) hs]
        cases changed with
        | false => simpa using h
        | true =>
          simp only [if_pos rfl] at h ⊢
          exact ih m st' wb r hnm' h

/-- Claim C7: for every input block state and every work block, the
`buildupSubgraphs` fixed-point loop over that work block ("repeat full reverse
sweeps while any merge occurred") terminates: some finite fuel makes
`workblockLoop` return a result, for any oracle.  Work blocks are bounded and
every merge strictly shrinks the remaining block, so a sweep without merges is
eventually reached. -/
theorem workblockLoop_terminates (O : Oracles) (st : BState) (wb : WorkBlock) :
    ∃ fuel, (workblockLoop O fuel st wb).isSome := by
  suffices h : ∀ (L : Nat) (st : BState), st.nodes.length ≤ L →
      ∃ fuel, (workblockLoop O fuel st wb).isSome from
    h st.nodes.length st (le_refl _)
  intro L
  induction L using Nat.strong_induction_on with
  | _ L IHL =>
    intro st hL
    obtain ⟨n₁, hn₁⟩ := sweepLoop_terminates O st.nodes.length st
      (startCursor st.nodes wb.wbEnd) wb.wbBegin (le_refl _)
    obtain ⟨⟨st', ch, vs⟩, hr⟩ := Option.isSome_iff_exists.mp hn₁
    cases ch with
    | false =>
      refine ⟨n₁ + 1, ?_⟩
      simp only [workblockLoop]
      rw [sweepLoop_mono O n₁ (n₁ + 1) st _ _ _ (by omega) hr]
      simp
    | true =>
      have hlt := (sweepLoop_length O n₁ st _ _ st' true vs hr).2 rfl
      obtain ⟨n₂, hn₂⟩ := IHL st'.nodes.length (by omega) st' (le_refl _)
      obtain ⟨r₂, hr₂⟩ := Option.isSome_iff_exists.mp hn₂
      refine ⟨Nat.max n₁ n₂ + 1, ?_⟩
      simp only [workblockLoop]
      rw [sweepLoop_mono O n₁ (Nat.max n₁ n₂ + 1) st _ _ _
        (Nat.le_trans (Nat.le_max_left _ _) (Nat.le_succ _)) hr]
      simp only [if_pos rfl]
      rw [workblockLoop_mono O n₂ (Nat.max n₁ n₂) st' wb r₂ (Nat.le_max_right _ _) hr₂]
      simp

/-- Witness for `addRequiresGrad_frame` at the concrete output `c3Output`. -/
theorem addRequiresGrad_frame_witness :
    [c3Output].get? 0 = some c3Output ∧
    ((AddRequiresGradToDifferentiableGraph [c3Output]).length = [c3Output].length ∧
    ∃ r, (AddRequiresGradToDifferentiableGraph [c3Output]).get? 0 = some r ∧
      r.producedByProfile = c3Output.producedByProfile ∧
      r.uses = c3Output.uses ∧
      ((c3Output.producedByProfile = true ∨ (∀ rg m, c3Output.ty ≠ Ty.tensor rg m) ∨
          (∃ b m, c3Output.ty = Ty.tensor (some b) m)) → r = c3Output) ∧
      (r = c3Output ∨ ∃ b m, c3Output.ty = Ty.tensor none m ∧
        r.ty = Ty.tensor (some b) m)) :=
  ⟨rfl, addRequiresGrad_frame [c3Output] c3Output 0 rfl⟩

/-!
## SizeFilter / Cleanup: the size invariant (claim C1)
-/

theorem execCount_cons (n : Node) (rest : List Node) :
    execCount (n :: rest) = (if n.notExecutedOp then 0 else 1) + execCount rest := by
  cases h : n.notExecutedOp <;> (simp [execCount, List.filter_cons, h]; try omega)

theorem inlineIfTooSmallGo_spec (minSize : Nat) :
    ∀ (sub : List Node) (i : Nat), i < minSize →
      (inlineIfTooSmallGo minSize i sub = true ↔ i + execCount sub < minSize) := by
  intro sub
  induction sub with
  | nil =>
    intro i hi
    exact iff_of_true rfl (by simp [execCount]; omega)
  | cons n rest ih =>
    intro i hi
    rw [execCount_cons]
    cases hne : n.notExecutedOp with
    | true =>
      simp only [inlineIfTooSmallGo, hne, if_true]
      by_cases hle : minSize ≤ i + 0
      · omega
      · simp only [if_neg hle]
        rw [ih (i + 0) (by omega)]
        omega
    | false =>
      simp only [inlineIfTooSmallGo, hne, Bool.false_eq_true, if_false]
      by_cases hle : minSize ≤ i + 1
      · simp only [if_pos hle]
        constructor
        · intro hf; cases hf
        · intro hlt; omega
      · simp only [if_neg hle]
        rw [ih (i + 1) (by omega)]
        omega

/-- `inlineIfTooSmall` is exactly the "subgraph has fewer than `minSize` executed
nodes" test (for the positive thresholds the entry point requires). -/
theorem inlineIfTooSmall_iff (minSize : Nat) (hmin : 1 ≤ minSize) (sub : List Node) :
    inlineIfTooSmall minSize sub = true ↔ execCount sub < minSize := by
  have := inlineIfTooSmallGo_spec minSize sub 0 (by omega)
  simpa [inlineIfTooSmall] using this

/-- Every group the block-level cleanup collects has at least `minSize` executed
nodes in its (deduplicated) subgraph. -/
theorem cleanupBlock_sizes (minSize : Nat) (hmin : 1 ≤ minSize) :
    ∀ ns, ∀ g ∈ (cleanupBlock minSize ns).2, minSize ≤ execCount g.subgraph := by
  intro ns
  induction ns with
  | nil => intro g hg; simp [cleanupBlock] at hg
  | cons n rest ih =>
    intro g hg
    by_cases hgr : isGroup n = true
    · by_cases hsm : inlineIfTooSmall minSize
          (n.setSubgraph (cseList n.outputs n.subgraph)).subgraph = true
      · simp only [cleanupBlock, hgr, if_true, hsm] at hg
        exact ih g hg
      · simp only [Bool.not_eq_true] at hsm
        simp only [cleanupBlock, hgr, if_true, hsm, Bool.false_eq_true, if_false] at hg
        rcases List.mem_append.mp hg with hg1 | hg1
        · exact ih g hg1
        · have hgeq : g = n.setSubgraph (cseList n.outputs n.subgraph) := by
            simpa using hg1
          subst hgeq
          rw [Node.subgraph_setSubgraph]
          by_contra hcon
          push_neg at hcon
          have := (inlineIfTooSmall_iff minSize hmin
            (cseList n.outputs n.subgraph)).mpr (by simpa using hcon)
          rw [Node.subgraph_setSubgraph] at hsm
          rw [this] at hsm
          cases hsm
    · simp only [Bool.not_eq_true] at hgr
      simp only [cleanupBlock, hgr, Bool.false_eq_true, if_false] at hg
      exact ih g hg

/-- The size invariant holds for everything the recursive cleanup collects, at
every block level. -/
theorem cleanup_sizes (minSize : Nat) (hmin : 1 ≤ minSize) :
    ∀ fuel : Nat,
      (∀ ns res, cleanupSubgraphs minSize fuel ns = some res →
        ∀ g ∈ res.2, minSize ≤ execCount g.subgraph) ∧
      (∀ ns res, cleanupChildren minSize fuel ns = some res →
        ∀ g ∈ res.2, minSize ≤ execCount g.subgraph) ∧
      (∀ bs res, cleanupBlocks minSize fuel bs = some res →
        ∀ g ∈ res.2, minSize ≤ execCount g.subgraph) := by
  intro fuel
  induction fuel with
  | zero =>
    refine ⟨?_, ?_, ?_⟩ <;> (intro x res h; cases h)
  | succ fuel ih =>
    obtain ⟨ih1, ih2, ih3⟩ := ih
    refine ⟨?_, ?_, ?_⟩
    · intro ns res h
      simp only [cleanupSubgraphs] at h
      cases hc : cleanupChildren minSize fuel (cleanupBlock minSize ns).1 with
      | none => rw [hc] at h; cases h
      | some rc =>
        rw [hc] at h
        have hres : res = (rc.1, (cleanupBlock minSize ns).2 ++ rc.2) :=
          (Option.some.inj h).symm
        subst hres
        intro g hg
        rcases List.mem_append.mp hg with hg1 | hg1
        · exact cleanupBlock_sizes minSize hmin ns g hg1
        · exact ih2 _ rc hc g hg1
    · intro ns res h
      cases ns with
      | nil =>
        have hres : res = ([], []) := by
          simpa [cleanupChildren] using h.symm
        subst hres
        intro g hg; cases hg
      | cons n rest =>
        cases hb : cleanupBlocks minSize fuel n.blocks with
        | none => simp [cleanupChildren, hb] at h
        | some rb =>
          cases hr : cleanupChildren minSize fuel rest with
          | none => simp [cleanupChildren, hb, hr] at h
          | some rr =>
            simp only [cleanupChildren, hb, hr, Option.bind_eq_bind,
              Option.some_bind, Option.pure_def, Option.some.injEq] at h
            subst h
            intro g hg
            rcases List.mem_append.mp hg with hg1 | hg1
            · exact ih3 _ rb hb g hg1
            · exact ih2 _ rr hr g hg1
    · intro bs res h
      cases bs with
      | nil =>
        have hres : res = ([], []) := by
          simpa [cleanupBlocks] using h.symm
        subst hres
        intro g hg; cases hg
      | cons b rest =>
        cases hb : cleanupSubgraphs minSize fuel b with
        | none => simp [cleanupBlocks, hb] at h
        | some rb =>
          cases hr : cleanupBlocks minSize fuel rest with
          | none => simp [cleanupBlocks, hb, hr] at h
          | some rr =>
            simp only [cleanupBlocks, hb, hr, Option.bind_eq_bind,
              Option.some_bind, Option.pure_def, Option.some.injEq] at h
            subst h
            intro g hg
            rcases List.mem_append.mp hg with hg1 | hg1
            · exact ih1 _ rb hb g hg1
            · exact ih3 _ rr hr g hg1

/-- A too-small group is dissolved by the block-level cleanup: its (deduplicated)
subgraph contents return to the parent block. -/
theorem cleanupBlock_keeps_contents (minSize : Nat) (hmin : 1 ≤ minSize) :
    ∀ (ns : List Node) (n : Node), n ∈ ns → isGroup n = true →
      execCount (cseList n.outputs n.subgraph) < minSize →
      ∀ m ∈ cseList n.outputs n.subgraph, m ∈ (cleanupBlock minSize ns).1 := by
  intro ns
  induction ns with
  | nil => intro n hn; cases hn
  | cons n₀ rest ih =>
    intro n hn hgr hsm m hm
    rcases List.mem_cons.mp hn with heq | hmem
    · subst heq
      have hinl : inlineIfTooSmall minSize (cseList n.outputs n.subgraph) = true :=
        (inlineIfTooSmall_iff minSize hmin _).mpr hsm
      simp only [cleanupBlock, hgr, if_true, Node.subgraph_setSubgraph, hinl]
      exact List.mem_append_left _ hm
    · have hrec := ih n hmem hgr hsm m hm
      by_cases hg0 : isGroup n₀ = true
      · by_cases hs0 : inlineIfTooSmall minSize (cseList n₀.outputs n₀.subgraph) = true
        · simp only [cleanupBlock, hg0, if_true, Node.subgraph_setSubgraph, hs0]
          exact List.mem_append_right _ hrec
        · simp only [Bool.not_eq_true] at hs0
          simp only [cleanupBlock, hg0, if_true, Node.subgraph_setSubgraph, hs0,
            Bool.false_eq_true, if_false]
          exact List.mem_cons_of_mem _ hrec
      · simp only [Bool.not_eq_true] at hg0
        simp only [cleanupBlock, hg0, Bool.false_eq_true, if_false]
        exact List.mem_cons_of_mem _ hrec

/-- Claim C1: every group node in the list returned by `CreateAutodiffSubgraphs`
has at least `threshold` non-no-op (executed) nodes in its subgraph; a group whose
count is below the threshold is dissolved back into its parent block by Cleanup
(its deduplicated subgraph contents are spliced in at its position) and is not in
the collected list. -/
theorem CreateAutodiffSubgraphs_size_invariant (O : Oracles) (fuel minSize : Nat)
    (g0 : Block) (fresh : Nat) (res : Block × List Node)
    (hmin : 1 ≤ minSize)
    (hrun : CreateAutodiffSubgraphs O fuel minSize g0 fresh = some res) :
    (∀ d ∈ res.2, minSize ≤ execCount d.subgraph) ∧
    (∀ (ns : List Node) (n : Node), n ∈ ns → isGroup n = true →
      execCount (cseList n.outputs n.subgraph) < minSize →
      (∀ m ∈ cseList n.outputs n.subgraph, m ∈ (cleanupBlock minSize ns).1) ∧
      n.setSubgraph (cseList n.outputs n.subgraph) ∉ (cleanupBlock minSize ns).2) := by
  constructor
  · intro d hd
    unfold CreateAutodiffSubgraphs at hrun
    cases hb : buildupSubgraphs O minSize fuel ⟨g0, fresh⟩ with
    | none => simp [hb] at hrun
    | some st1 =>
      cases hu : unfuseAliasedOutputs O.mayAlias fuel st1.nodes with
      | none => simp [hb, hu] at hrun
      | some ns2 =>
        cases hcl : cleanupSubgraphs minSize fuel ns2 with
        | none => simp [hb, hu, hcl] at hrun
        | some rr =>
          simp only [hb, hu, hcl, Option.bind_eq_bind, Option.some_bind,
            Option.pure_def, Option.some.injEq] at hrun
          have hds : res.2 = rr.2 := by rw [← hrun]
          rw [hds] at hd
          exact (cleanup_sizes minSize hmin fuel).1 ns2 rr hcl d hd
  · intro ns n hn hgr hsm
    refine ⟨cleanupBlock_keeps_contents minSize hmin ns n hn hgr hsm, ?_⟩
    intro hmem
    have hge := cleanupBlock_sizes minSize hmin ns _ hmem
    rw [Node.subgraph_setSubgraph] at hge
    omega

/-!
## The concrete side-effect boundary scenario (claim C8, and witnesses)

Nodes `[A(diff), B(side-effecting), C(diff), D(diff)]`, `D` consuming `C`'s
output, both `A` and `C` consuming the outer value `100`, threshold 2.
-/

def scenA : Node := .mk 1 (.Op 0) false true [100] [101] [] []
def scenB : Node := .mk 2 (.Op 1) true false [] [102] [] []
def scenC : Node := .mk 3 (.Op 2) false true [100] [103] [] []
def scenD : Node := .mk 4 (.Op 3) false true [103] [104] [] []

/-- The scenario oracles: the alias oracle lets every (non-side-effecting) move
through and reports no aliasing. -/
def scenOracles : Oracles := ⟨fun _ _ => true, fun _ _ => false⟩

def scenBlock : Block := [scenA, scenB, scenC, scenD]

/-- The one finalized group the scenario produces: `C` and `D` fused, consuming
the outer value `100` and producing `D`'s output. -/
def scenGroup : Node :=
  .mk 1000 .DifferentiableGraph false true [100] [104] [scenC, scenD] []

/-- Witness for `CreateAutodiffSubgraphs_size_invariant` on the concrete
scenario block at threshold 2. -/
theorem CreateAutodiffSubgraphs_size_invariant_witness :
    (1 ≤ 2) ∧
    ((∀ d ∈ (([scenA, scenB, scenGroup], [scenGroup]) : Block × List Node).2,
        2 ≤ execCount d.subgraph) ∧
     (∀ (ns : List Node) (n : Node), n ∈ ns → isGroup n = true →
        execCount (cseList n.outputs n.subgraph) < 2 →
        (∀ m ∈ cseList n.outputs n.subgraph, m ∈ (cleanupBlock 2 ns).1) ∧
        n.setSubgraph (cseList n.outputs n.subgraph) ∉ (cleanupBlock 2 ns).2)) :=
  ⟨by omega,
   CreateAutodiffSubgraphs_size_invariant scenOracles 20 2 scenBlock 1000
     ([scenA, scenB, scenGroup], [scenGroup]) (by omega) rfl⟩

/-- Claim C8: on a block whose interior is `[A(diff), B(side-effecting), C(diff),
D(diff)]` (no dependencies besides `D` consuming `C`) with threshold 2,
`CreateAutodiffSubgraphs` returns exactly one finalized group, whose subgraph
holds `C` and `D` in original order, and `A` remains an ungrouped (non-group)
node of the outer block. -/
theorem scenario_side_effect_boundary :
    CreateAutodiffSubgraphs scenOracles 20 2 scenBlock 1000 =
      some ([scenA, scenB, scenGroup], [scenGroup]) ∧
    scenGroup.kind = .DifferentiableGraph ∧
    scenGroup.subgraph = [scenC, scenD] ∧
    scenA.kind ≠ .DifferentiableGraph ∧
    scenA ∈ [scenA, scenB, scenGroup] :=
  ⟨rfl, rfl, rfl, by decide, by simp⟩

/-!
## Cleanup collection order (claim C10)

`groupsOrder` is the declarative order the claim describes, computed from the
final graph: a block's groups tail-most first, then, per node in block order,
the groups of its child blocks, recursively.  The tidiness predicates say that
subgraphs hide no group nodes (true of every state the builder produces: merging
splices subgraphs and wrapping only wraps non-groups) and that group nodes own
no child blocks.
-/

mutual

/-- No `DifferentiableGraph` node anywhere in or below this node. -/
def nodeGroupFree : Node → Bool
  | .mk _ k _ _ _ _ sub bs =>
    !decide (k = NodeKind.DifferentiableGraph) && GroupFreeDeep sub &&
      GroupFreeBlocks bs

/-- No `DifferentiableGraph` node anywhere in this list. -/
def GroupFreeDeep : List Node → Bool
  | [] => true
  | n :: rest => nodeGroupFree n && GroupFreeDeep rest

/-- No `DifferentiableGraph` node anywhere in these blocks. -/
def GroupFreeBlocks : List Block → Bool
  | [] => true
  | b :: rest => GroupFreeDeep b && GroupFreeBlocks rest

end

mutual

/-- A node is tidy when, if it is a group, its subgraph hides no groups and it
owns no child blocks; and its child blocks are tidy. -/
def nodeTidy : Node → Bool
  | .mk _ k _ _ _ _ sub bs =>
    (if k = NodeKind.DifferentiableGraph then GroupFreeDeep sub && bs.isEmpty
     else true) && TidyBlocks bs

def TidyB : List Node → Bool
  | [] => true
  | n :: rest => nodeTidy n && TidyB rest

def TidyBlocks : List Block → Bool
  | [] => true
  | b :: rest => TidyB b && TidyBlocks rest

end

mutual

/-- The declarative collection order: this block's groups, tail-most first, then
every node's child-block groups, nodes in block order, recursively. -/
def groupsOrder (ns : List Node) : List Node :=
  (ns.filter (fun n => isGroup n)).reverse ++ childGroups ns

/-- The nested part of `groupsOrder`: per node, in order, the groups of its
child blocks. -/
def childGroups : List Node → List Node
  | [] => []
  | .mk _ _ _ _ _ _ _ bs :: rest => blocksGroups bs ++ childGroups rest

/-- `groupsOrder` over a list of child blocks, in order. -/
def blocksGroups : List Block → List Node
  | [] => []
  | b :: rest => groupsOrder b ++ blocksGroups rest

end

theorem nodeGroupFree_spec (n : Node) :
    nodeGroupFree n = (!isGroup n && GroupFreeDeep n.subgraph &&
      GroupFreeBlocks n.blocks) := by
  cases n; rfl

theorem nodeTidy_spec (n : Node) :
    nodeTidy n = ((if n.kind = NodeKind.DifferentiableGraph then
      GroupFreeDeep n.subgraph && n.blocks.isEmpty else true) &&
        TidyBlocks n.blocks) := by
  cases n; rfl

theorem GroupFreeDeep_iff_all (ns : List Node) :
    GroupFreeDeep ns = true ↔ ∀ x ∈ ns, nodeGroupFree x = true := by
  induction ns with
  | nil => simp [GroupFreeDeep]
  | cons n rest ih => simp [GroupFreeDeep, ih]

theorem TidyB_iff_all (ns : List Node) :
    TidyB ns = true ↔ ∀ x ∈ ns, nodeTidy x = true := by
  induction ns with
  | nil => simp [TidyB]
  | cons n rest ih => simp [TidyB, ih]

theorem TidyBlocks_iff_all (bs : List Block) :
    TidyBlocks bs = true ↔ ∀ b ∈ bs, TidyB b = true := by
  induction bs with
  | nil => simp [TidyBlocks]
  | cons b rest ih => simp [TidyBlocks, ih]

theorem GroupFreeBlocks_iff_all (bs : List Block) :
    GroupFreeBlocks bs = true ↔ ∀ b ∈ bs, GroupFreeDeep b = true := by
  induction bs with
  | nil => simp [GroupFreeBlocks]
  | cons b rest ih => simp [GroupFreeBlocks, ih]

theorem nodeGroupFree_setInputs (n : Node) (v : List Nat) :
    nodeGroupFree (n.setInputs v) = nodeGroupFree n := by
  cases n; rfl

/-- The modelled CSE only drops nodes and rewrites inputs, so it preserves
deep group-freeness of a subgraph. -/
theorem cseGo_groupFree (keep : List Nat) :
    ∀ (l kept : List Node) (σ : List (Nat × Nat)),
      (∀ x ∈ kept, nodeGroupFree x = true) → (∀ x ∈ l, nodeGroupFree x = true) →
      ∀ y ∈ cseGo keep kept σ l, nodeGroupFree y = true := by
  intro l
  induction l with
  | nil =>
    intro kept σ hk _ y hy
    simp only [cseGo, List.mem_reverse] at hy
    exact hk y hy
  | cons n rest ih =>
    intro kept σ hk hl y hy
    simp only [cseGo] at hy
    set n' := n.setInputs (n.inputs.map (substVal σ)) with hn'
    have hn'free : nodeGroupFree n' = true := by
      rw [hn', nodeGroupFree_setInputs]
      exact hl n (List.mem_cons_self _ _)
    cases hd : (if (!n'.sideEffects && !isGroup n' && n'.blocks.isEmpty &&
        n'.subgraph.isEmpty && n'.outputs.all fun o => !keep.contains o) = true then
          kept.find? fun m => m.kind == n'.kind && m.inputs == n'.inputs &&
            !m.sideEffects && !isGroup m && m.blocks.isEmpty && m.subgraph.isEmpty &&
            m.outputs.length == n'.outputs.length
        else none) with
    | none =>
      rw [hd] at hy
      refine ih (n' :: kept) σ ?_ (fun x hx => hl x (List.mem_cons_of_mem _ hx)) y hy
      intro x hx
      rcases List.mem_cons.mp hx with rfl | hx
      · exact hn'free
      · exact hk x hx
    | some m =>
      rw [hd] at hy
      exact ih kept (σ ++ n'.outputs.zip m.outputs) hk
        (fun x hx => hl x (List.mem_cons_of_mem _ hx)) y hy

theorem cseList_groupFree (keep : List Nat) (sub : List Node)
    (h : GroupFreeDeep sub = true) : GroupFreeDeep (cseList keep sub) = true := by
  rw [GroupFreeDeep_iff_all]
  exact cseGo_groupFree keep sub [] [] (by intro x hx; cases hx)
    ((GroupFreeDeep_iff_all sub).mp h)

/-- Group-free structure is trivially tidy. -/
theorem groupFree_imp_tidy :
    ∀ (k : Nat),
      (∀ n : Node, sizeOf n ≤ k → nodeGroupFree n = true → nodeTidy n = true) ∧
      (∀ ns : List Node, sizeOf ns ≤ k → GroupFreeDeep ns = true → TidyB ns = true) ∧
      (∀ bs : List Block, sizeOf bs ≤ k → GroupFreeBlocks bs = true →
        TidyBlocks bs = true) := by
  intro k
  induction k using Nat.strong_induction_on with
  | _ k ih =>
    refine ⟨?_, ?_, ?_⟩
    · intro n hs h
      cases n with
      | mk i kk s d is os sub bs =>
        simp only [nodeGroupFree, Bool.and_eq_true] at h
        obtain ⟨⟨h1, _⟩, h3⟩ := h
        have hkk : ¬ (kk = NodeKind.DifferentiableGraph) := by simpa using h1
        have hlt : sizeOf bs < sizeOf (Node.mk i kk s d is os sub bs) := by
          simp
        simp only [nodeTidy, if_neg hkk, Bool.true_and]
        exact (ih (sizeOf bs) (Nat.lt_of_lt_of_le hlt hs)).2.2 bs (le_refl _) h3
    · intro ns hs h
      cases ns with
      | nil => rfl
      | cons n rest =>
        simp only [GroupFreeDeep, Bool.and_eq_true] at h
        obtain ⟨h1, h2⟩ := h
        have hsn : sizeOf n < k := Nat.lt_of_lt_of_le (by simp; try omega) hs
        have hsr : sizeOf rest < k := Nat.lt_of_lt_of_le (by simp; try omega) hs
        simp only [TidyB, Bool.and_eq_true]
        exact ⟨(ih (sizeOf n) hsn).1 n (le_refl _) h1,
               (ih (sizeOf rest) hsr).2.1 rest (le_refl _) h2⟩
    · intro bs hs h
      cases bs with
      | nil => rfl
      | cons b rest =>
        simp only [GroupFreeBlocks, Bool.and_eq_true] at h
        obtain ⟨h1, h2⟩ := h
        have hsb : sizeOf b < k := Nat.lt_of_lt_of_le (by simp; try omega) hs
        have hsr : sizeOf rest < k := Nat.lt_of_lt_of_le (by simp; try omega) hs
        simp only [TidyBlocks, Bool.and_eq_true]
        exact ⟨(ih (sizeOf b) hsb).2.1 b (le_refl _) h1,
               (ih (sizeOf rest) hsr).2.2 rest (le_refl _) h2⟩

theorem nodeTidy_parts (n : Node) (h : nodeTidy n = true) :
    TidyBlocks n.blocks = true ∧
    (isGroup n = true → GroupFreeDeep n.subgraph = true ∧ n.blocks = []) := by
  rw [nodeTidy_spec] at h
  simp only [Bool.and_eq_true] at h
  obtain ⟨h1, h2⟩ := h
  refine ⟨h2, ?_⟩
  intro hg
  have hkind : n.kind = NodeKind.DifferentiableGraph := by simpa [isGroup] using hg
  rw [if_pos hkind] at h1
  simp only [Bool.and_eq_true] at h1
  exact ⟨h1.1, by simpa using h1.2⟩

theorem Node.setBlocks_self (n : Node) (h : n.blocks = []) : n.setBlocks [] = n := by
  cases n
  simp only [Node.blocks_mk] at h
  subst h
  rfl

@[simp] theorem isGroup_setSubgraph (n : Node) (g : List Node) :
    isGroup (n.setSubgraph g) = isGroup n := by
  cases n; rfl

@[simp] theorem isGroup_setBlocks (n : Node) (b : List Block) :
    isGroup (n.setBlocks b) = isGroup n := by
  cases n; rfl

theorem nodeGroupFree_not_group (n : Node) (h : nodeGroupFree n = true) :
    isGroup n = false := by
  rw [nodeGroupFree_spec] at h
  simp only [Bool.and_eq_true] at h
  simpa using h.1.1

/-- The block-level cleanup collects exactly the surviving block-level groups,
tail-most first, and keeps the block tidy. -/
theorem cleanupBlock_order (minSize : Nat) :
    ∀ ns, TidyB ns = true →
      (cleanupBlock minSize ns).2 =
        ((cleanupBlock minSize ns).1.filter (fun n => isGroup n)).reverse ∧
      TidyB (cleanupBlock minSize ns).1 = true := by
  intro ns
  induction ns with
  | nil => intro _; exact ⟨rfl, rfl⟩
  | cons n rest ih =>
    intro ht
    simp only [TidyB, Bool.and_eq_true] at ht
    obtain ⟨htn, htr⟩ := ht
    obtain ⟨ih1, ih2⟩ := ih htr
    by_cases hgr : isGroup n = true
    · obtain ⟨htbl, hgrp⟩ := nodeTidy_parts n htn
      obtain ⟨hsubfree, hbem⟩ := hgrp hgr
      have hkind : n.kind = NodeKind.DifferentiableGraph := by simpa [isGroup] using hgr
      have hcse : GroupFreeDeep (cseList n.outputs n.subgraph) = true :=
        cseList_groupFree _ _ hsubfree
      by_cases hsm : inlineIfTooSmall minSize (cseList n.outputs n.subgraph) = true
      · simp only [cleanupBlock, hgr, if_true, Node.subgraph_setSubgraph, hsm]
        constructor
        · rw [ih1]
          have hfilt : (cseList n.outputs n.subgraph).filter (fun n => isGroup n)
              = [] := by
            rw [List.filter_eq_nil_iff]
            intro a ha
            have := (GroupFreeDeep_iff_all _).mp hcse a ha
            simp [nodeGroupFree_not_group a this]
          rw [List.filter_append, hfilt, List.nil_append]
        · rw [TidyB_iff_all]
          intro x hx
          rcases List.mem_append.mp hx with hx1 | hx1
          · have hgf := (GroupFreeDeep_iff_all _).mp hcse x hx1
            exact (groupFree_imp_tidy (sizeOf x)).1 x (le_refl _) hgf
          · exact (TidyB_iff_all _).mp ih2 x hx1
      · simp only [Bool.not_eq_true] at hsm
        simp only [cleanupBlock, hgr, if_true, Node.subgraph_setSubgraph, hsm,
          Bool.false_eq_true, if_false]
        constructor
        · rw [ih1, List.filter_cons]
          have hg' : isGroup (n.setSubgraph (cseList n.outputs n.subgraph)) = true := by
            simpa using hgr
          simp only [hg', if_true, List.reverse_cons]
        · rw [TidyB_iff_all]
          intro x hx
          rcases List.mem_cons.mp hx with rfl | hx1
          · rw [nodeTidy_spec]
            simp only [Node.kind_setSubgraph, Node.subgraph_setSubgraph,
              Node.blocks_setSubgraph, if_pos hkind, hcse, Bool.true_and, hbem]
            simp [TidyBlocks]
          · exact (TidyB_iff_all _).mp ih2 x hx1
    · simp only [Bool.not_eq_true] at hgr
      simp only [cleanupBlock, hgr, Bool.false_eq_true, if_false]
      constructor
      · rw [ih1, List.filter_cons]
        simp [hgr]
      · rw [TidyB_iff_all]
        intro x hx
        rcases List.mem_cons.mp hx with rfl | hx1
        · exact htn
        · exact (TidyB_iff_all _).mp ih2 x hx1

/-- The recursive cleanup's collected list is exactly the declarative
`groupsOrder` of the cleaned graph, at every block level. -/
theorem cleanup_order_all (minSize : Nat) :
    ∀ fuel : Nat,
      (∀ ns res, TidyB ns = true → cleanupSubgraphs minSize fuel ns = some res →
        res.2 = groupsOrder res.1) ∧
      (∀ ns res, TidyB ns = true → cleanupChildren minSize fuel ns = some res →
        res.2 = childGroups res.1 ∧
        res.1.filter (fun n => isGroup n) = ns.filter (fun n => isGroup n)) ∧
      (∀ bs res, TidyBlocks bs = true → cleanupBlocks minSize fuel bs = some res →
        res.2 = blocksGroups res.1) := by
  intro fuel
  induction fuel with
  | zero =>
    refine ⟨fun _ _ _ h => ?_, fun _ _ _ h => ?_, fun _ _ _ h => ?_⟩ <;> cases h
  | succ fuel ih =>
    obtain ⟨ih1, ih2, ih3⟩ := ih
    refine ⟨?_, ?_, ?_⟩
    · intro ns res ht h
      simp only [cleanupSubgraphs] at h
      cases hc : cleanupChildren minSize fuel (cleanupBlock minSize ns).1 with
      | none => rw [hc] at h; cases h
      | some rc =>
        rw [hc] at h
        have hres : res = (rc.1, (cleanupBlock minSize ns).2 ++ rc.2) :=
          (Option.some.inj h).symm
        subst hres
        obtain ⟨hds, htidy1⟩ := cleanupBlock_order minSize ns ht
        obtain ⟨hch, hfl⟩ := ih2 _ rc htidy1 hc
        show (cleanupBlock minSize ns).2 ++ rc.2 = groupsOrder rc.1
        rw [groupsOrder, hds, hch, ← hfl]
    · intro ns res ht h
      cases ns with
      | nil =>
        have hres : res = ([], []) := by simpa [cleanupChildren] using h.symm
        subst hres
        exact ⟨by simp [childGroups], rfl⟩
      | cons n rest =>
        simp only [TidyB, Bool.and_eq_true] at ht
        obtain ⟨htn, htr⟩ := ht
        cases hb : cleanupBlocks minSize fuel n.blocks with
        | none => simp [cleanupChildren, hb] at h
        | some rb =>
          cases hr : cleanupChildren minSize fuel rest with
          | none => simp [cleanupChildren, hb, hr] at h
          | some rr =>
            simp only [cleanupChildren, hb, hr, Option.bind_eq_bind,
              Option.some_bind, Option.pure_def, Option.some.injEq] at h
            subst h
            obtain ⟨htbl, hgrp⟩ := nodeTidy_parts n htn
            obtain ⟨hrr1, hrr2⟩ := ih2 rest rr htr hr
            have hrb := ih3 n.blocks rb htbl hb
            constructor
            · have hcg : childGroups (n.setBlocks rb.1 :: rr.1) =
                  blocksGroups rb.1 ++ childGroups rr.1 := by
                cases n
                simp [childGroups, Node.setBlocks]
              show rb.2 ++ rr.2 = childGroups (n.setBlocks rb.1 :: rr.1)
              rw [hcg, hrb, hrr1]
            · show (n.setBlocks rb.1 :: rr.1).filter (fun n => isGroup n) =
                (n :: rest).filter (fun n => isGroup n)
              by_cases hgr : isGroup n = true
              · obtain ⟨_, hbem⟩ := hgrp hgr
                have hrbeq : rb = ([], []) := by
                  rw [hbem] at hb
                  cases fuel with
                  | zero => cases hb
                  | succ f =>
                    have := Option.some.inj hb
                    exact this.symm
                rw [hrbeq]
                rw [Node.setBlocks_self n hbem]
                simp only [List.filter_cons, hgr, if_pos rfl, hrr2]
              · simp only [Bool.not_eq_true] at hgr
                simp only [List.filter_cons, isGroup_setBlocks, hgr,
                  Bool.false_eq_true, if_false, hrr2]
    · intro bs res ht h
      cases bs with
      | nil =>
        have hres : res = ([], []) := by simpa [cleanupBlocks] using h.symm
        subst hres
        simp [blocksGroups]
      | cons b rest =>
        simp only [TidyBlocks, Bool.and_eq_true] at ht
        obtain ⟨htb, htr⟩ := ht
        cases hb : cleanupSubgraphs minSize fuel b with
        | none => simp [cleanupBlocks, hb] at h
        | some rb =>
          cases hr : cleanupBlocks minSize fuel rest with
          | none => simp [cleanupBlocks, hb, hr] at h
          | some rr =>
            simp only [cleanupBlocks, hb, hr, Option.bind_eq_bind,
              Option.some_bind, Option.pure_def, Option.some.injEq] at h
            subst h
            have h1 := ih1 b rb htb hb
            have h3 := ih3 rest rr htr hr
            show rb.2 ++ rr.2 = blocksGroups (rb.1 :: rr.1)
            rw [blocksGroups, h1, h3]

/-- Claim C10: the collected list of finalized groups is ordered with each
block's groups tail-most first, and a block's groups before every group found in
the nested child blocks of that block's nodes — formally, Cleanup's collected
list is exactly `groupsOrder` of the cleaned graph (for tidy inputs: group
subgraphs hide no nested groups and groups own no child blocks, which is how the
builder leaves the graph).  `CreateAutodiffSubgraphs` returns this list
unchanged (the final global CSE never removes or reorders group nodes). -/
theorem cleanup_collection_order (minSize fuel : Nat) (ns : List Node)
    (res : List Node × List Node) (htidy : TidyB ns = true)
    (hrun : cleanupSubgraphs minSize fuel ns = some res) :
    res.2 = groupsOrder res.1 :=
  (cleanup_order_all minSize fuel).1 ns res htidy hrun

/-- Witness for `cleanup_collection_order` on the concrete scenario result. -/
theorem cleanup_collection_order_witness :
    TidyB [scenA, scenB, scenGroup] = true ∧
    (([scenA, scenB, scenGroup], [scenGroup]) : List Node × List Node).2 =
      groupsOrder (([scenA, scenB, scenGroup], [scenGroup]) :
        List Node × List Node).1 :=
  ⟨by simp [TidyB, nodeTidy, scenA, scenB, scenGroup, scenC, scenD,
      GroupFreeDeep, nodeGroupFree, GroupFreeBlocks, TidyBlocks],
   cleanup_collection_order 2 10 [scenA, scenB, scenGroup]
     ([scenA, scenB, scenGroup], [scenGroup])
     (by simp [TidyB, nodeTidy, scenA, scenB, scenGroup, scenC, scenD,
       GroupFreeDeep, nodeGroupFree, GroupFreeBlocks, TidyBlocks])
     rfl⟩

/-!
## C4: work-block emission and the span the merge sweep actually visits

`segmentsOf` is the declarative segmentation the claim describes (the spec-words
side of the refinement): walking the block tail-to-head, every side-effecting
node closes the current segment — the side-effecting node itself belongs to the
segment it closes, since the scan counts it before testing for side effects —
and becomes the next segment's begin bound; when the scan reaches the parameter
sentinel the last segment is closed with begin bound `none`.  A segment is
paired with the `WorkBlock` that represents it.  `buildWorkBlocks` is proved to
emit exactly the work blocks of the segments whose candidate count meets the
threshold, in scan order.  The sweep-span half then characterizes which nodes a
(merge-free) sweep of a work block actually visits: the half-open interval from
the begin bound (exclusive) to the end bound (inclusive), in reverse order —
the end-bound node itself is visited, which refutes the claim's open interval.
-/

/-- Declarative segmentation of the backward scan ([workblocks]); the input list
is the block interior in reverse (tail-to-head) order and `acc` is the current
partial segment, also in scan order. -/
def segmentsOf : Option Nat → List Node → List Node → List (WorkBlock × List Node)
  | b, acc, [] => [(⟨none, b⟩, acc)]
  | b, acc, n :: rest =>
    if n.sideEffects then
      (⟨some n.id, b⟩, acc ++ [n]) :: segmentsOf (some n.id) [] rest
    else
      segmentsOf b (acc ++ [n]) rest

theorem buildWorkBlocksGo_eq_segments (minSize : Nat) :
    ∀ (l : List Node) (b : Option Nat) (acc : List Node),
      buildWorkBlocksGo minSize l b (acc.countP shouldConsiderForMerge) =
        ((segmentsOf b acc l).filter
            (fun s => minSize ≤ s.2.countP shouldConsiderForMerge)).map Prod.fst := by
  intro l
  induction l with
  | nil =>
    intro b acc
    by_cases h : minSize ≤ acc.countP shouldConsiderForMerge
    · simp [buildWorkBlocksGo, segmentsOf, List.filter, h]
    · simp [buildWorkBlocksGo, segmentsOf, List.filter, h]
  | cons n rest ih =>
    intro b acc
    have hcount : acc.countP shouldConsiderForMerge +
        (if shouldConsiderForMerge n then 1 else 0) =
        (acc ++ [n]).countP shouldConsiderForMerge := by
      simp [List.countP_append, List.countP_cons]
    by_cases hs : n.sideEffects
    · have h0 := ih (some n.id) []
      simp only [List.countP_nil] at h0
      by_cases hm : minSize ≤ (acc ++ [n]).countP shouldConsiderForMerge
      · simp only [List.countP_append] at hm
        simp [buildWorkBlocksGo, segmentsOf, hs, hcount, h0, List.filter_cons,
          List.countP_append, hm]
      · simp only [List.countP_append] at hm
        simp [buildWorkBlocksGo, segmentsOf, hs, hcount, h0, List.filter_cons,
          List.countP_append, hm]
    · simpa [buildWorkBlocksGo, segmentsOf, hs, hcount] using ih b (acc ++ [n])

/-- `buildWorkBlocks` emits exactly the segments whose candidate count meets the
threshold, each represented by its bounding work block, in backward scan
order. -/
theorem buildWorkBlocks_eq_segments (minSize : Nat) (ns : List Node) :
    buildWorkBlocks minSize ns =
      ((segmentsOf none [] ns.reverse).filter
          (fun s => minSize ≤ s.2.countP shouldConsiderForMerge)).map Prod.fst := by
  have h := buildWorkBlocksGo_eq_segments minSize ns.reverse none []
  simpa [buildWorkBlocks] using h

theorem mergeFirst_nomove (O : Oracles) (hO : ∀ a b, O.canMove a b = false)
    (st : BState) (c : Node) : ∀ l, mergeFirst O st c l = none := by
  intro l
  induction l with
  | nil => rfl
  | cons v rest ih =>
    simp only [mergeFirst]
    cases hp : producerOf st.nodes v with
    | none => exact ih
    | some p =>
      have ht : tryMerge O st c p = none := by
        simp [tryMerge, canMoveBeforeTopologicallyValid, hO]
      simp [ht, ih]

/-- With an always-refusing move oracle, `scanNode` never merges: it only wraps a
candidate into a singleton group and moves the cursor to the predecessor. -/
theorem scanNode_nomove (O : Oracles) (hO : ∀ a b, O.canMove a b = false)
    (st : BState) (cur : Node) :
    scanNode O st cur =
      if shouldConsiderForMerge cur then
        ((ensureGroup st cur).1,
          prevIdOf (ensureGroup st cur).1.nodes (ensureGroup st cur).2.id, false)
      else (st, prevIdOf st.nodes cur.id, false) := by
  unfold scanNode
  by_cases hc : shouldConsiderForMerge cur = true
  · simp [hc, mergeFirst_nomove O hO]
  · simp [hc]

theorem find?_append_none {p : Node → Bool} :
    ∀ (l1 l2 : List Node), (∀ n ∈ l1, p n = false) →
      List.find? p (l1 ++ l2) = List.find? p l2 := by
  intro l1
  induction l1 with
  | nil => intro l2 _; rfl
  | cons m l1' ih =>
    intro l2 h
    have hm : p m = false := h m (by simp)
    simp only [List.cons_append, List.find?_cons, hm, cond_false]
    exact ih l2 (fun n hn => h n (by simp [hn]))

/-- The id of the last node of `l`, or the default `d` when `l` is empty (the
reverse-iterator increment lands here after walking past `l`). -/
def lastIdD (l : List Node) (d : Option Nat) : Option Nat :=
  match l.getLast? with
  | some n => some n.id
  | none => d

theorem lastIdD_cons (m : Node) (l : List Node) (p : Option Nat) :
    lastIdD (m :: l) p = lastIdD l (some m.id) := by
  cases l with
  | nil => rfl
  | cons a l' =>
    simp only [lastIdD, List.getLast?_cons_cons]
    cases h : (a :: l').getLast? with
    | none => simp at h
    | some n => simp only [h]

theorem getLast?_cons_getD (a : Node) :
    ∀ (l : List Node), (a :: l).getLast? = some (l.getLast?.getD a) := by
  intro l
  induction l generalizing a with
  | nil => rfl
  | cons b l' ih =>
    rw [List.getLast?_cons_cons, ih b]
    rfl

theorem lastIdD_cons_eq (bn : Node) : ∀ (l : List Node) (d : Option Nat),
    lastIdD (bn :: l) d = some ((l.getLast?.getD bn).id) := by
  intro l
  induction l generalizing bn with
  | nil => intro d; rfl
  | cons a l' ih =>
    intro d
    rw [lastIdD_cons, ih a, getLast?_cons_getD]
    rfl

theorem prevIdGo_append (t : Nat) :
    ∀ (l1 l2 : List Node) (p : Option Nat), (∀ n ∈ l1, n.id ≠ t) →
      prevIdGo t p (l1 ++ l2) = prevIdGo t (lastIdD l1 p) l2 := by
  intro l1
  induction l1 with
  | nil => intro l2 p _; rfl
  | cons m l1' ih =>
    intro l2 p h
    have hm : ¬ (m.id = t) := h m (by simp)
    simp only [List.cons_append, prevIdGo, if_neg hm, List.append_eq]
    rw [ih l2 (some m.id) (fun n hn => h n (by simp [hn])), lastIdD_cons]

/-- The predecessor of a node whose strict-left context has no equal id is the
last node of that context (or the parameter sentinel when the context is
empty). -/
theorem prevIdOf_append (l1 : List Node) (g : Node) (l2 : List Node)
    (h : ∀ n ∈ l1, n.id ≠ g.id) :
    prevIdOf (l1 ++ g :: l2) g.id = lastIdD l1 none := by
  unfold prevIdOf
  rw [prevIdGo_append g.id l1 (g :: l2) none h]
  simp [prevIdGo]

theorem map_keep_of_ne : ∀ (l : List Node) (t : Nat) (g : Node),
    (∀ n ∈ l, n.id ≠ t) → l.map (fun m => if m.id = t then g else m) = l := by
  intro l
  induction l with
  | nil => intro t g _; rfl
  | cons m l' ih =>
    intro t g h
    simp only [List.map_cons]
    rw [if_neg (h m (by simp)), ih t g (fun n hn => h n (by simp [hn]))]

/-- Replacing by id in a block with unique ids replaces exactly the one node. -/
theorem map_replace_id (l1 l2 : List Node) (cur g : Node)
    (h1 : ∀ n ∈ l1, n.id ≠ cur.id) (h2 : ∀ n ∈ l2, n.id ≠ cur.id) :
    (l1 ++ cur :: l2).map (fun m => if m.id = cur.id then g else m) =
      l1 ++ g :: l2 := by
  rw [List.map_append, List.map_cons, if_pos rfl, map_keep_of_ne l1 cur.id g h1,
    map_keep_of_ne l2 cur.id g h2]

theorem lastIdD_append : ∀ (l1 l2 : List Node) (d : Option Nat),
    lastIdD (l1 ++ l2) d = lastIdD l2 (lastIdD l1 d) := by
  intro l1
  induction l1 with
  | nil => intro l2 d; rfl
  | cons m l1' ih =>
    intro l2 d
    rw [List.cons_append, lastIdD_cons, ih l2 (some m.id), lastIdD_cons]

/-- One merge-free `scanNode` call on a node with unique id in its block: the node
is replaced in place (by itself, or by the fresh singleton group wrapping it), the
cursor moves to the predecessor, and no change is reported. -/
theorem scanNode_nomove_decomp (O : Oracles) (hO : ∀ a b, O.canMove a b = false)
    (l1 l2 : List Node) (cur : Node) (fr : Nat)
    (hne1 : ∀ n ∈ l1, n.id ≠ cur.id) (hne2 : ∀ n ∈ l2, n.id ≠ cur.id)
    (hb1 : ∀ n ∈ l1, n.id < fr) :
    ∃ rep fr', scanNode O ⟨l1 ++ cur :: l2, fr⟩ cur
        = (⟨l1 ++ rep :: l2, fr'⟩, lastIdD l1 none, false) ∧
      ((rep = cur ∧ fr' = fr) ∨ (rep.id = fr ∧ fr' = fr + 1)) := by
  rw [scanNode_nomove O hO]
  by_cases hc : shouldConsiderForMerge cur = true
  · by_cases hg : cur.kind = NodeKind.DifferentiableGraph
    · refine ⟨cur, fr, ?_, Or.inl ⟨rfl, rfl⟩⟩
      have hp := prevIdOf_append l1 cur l2 hne1
      simp [hc, ensureGroup, hg, hp]
    · refine ⟨Node.mk fr .DifferentiableGraph false true cur.inputs cur.outputs
        [cur] [], fr + 1, ?_, Or.inr ⟨by simp, rfl⟩⟩
      have hmr := map_replace_id l1 l2 cur
        (Node.mk fr .DifferentiableGraph false true cur.inputs cur.outputs [cur] [])
        hne1 hne2
      have hgne : ∀ n ∈ l1, n.id ≠ (Node.mk fr .DifferentiableGraph false true
          cur.inputs cur.outputs [cur] []).id := by
        intro n hn h
        have h2 := hb1 n hn
        simp at h
        omega
      have hp := prevIdOf_append l1
        (Node.mk fr .DifferentiableGraph false true cur.inputs cur.outputs [cur] [])
        l2 hgne
      simp only [Node.id_mk] at hp
      simp [hc, ensureGroup, hg, wrapSingleton, hmr, hp]
  · refine ⟨cur, fr, ?_, Or.inl ⟨rfl, rfl⟩⟩
    have hp := prevIdOf_append l1 cur l2 hne1
    simp [hc, hp]

/-- The span a merge-free sweep actually visits: starting from the node under the
cursor — the last node of `mid`, or the begin bound itself when `mid` is empty —
the sweep bounded (exclusively) below by `bn` visits exactly the nodes of `mid`,
last first, only wraps visited candidates in place, reports no change, and stops
at `bn`. -/
theorem sweepLoop_span (O : Oracles) (hO : ∀ a b, O.canMove a b = false) :
    ∀ (fuel : Nat) (mid pre rest : List Node) (bn : Node) (fr : Nat),
      mid.length < fuel →
      ((pre ++ bn :: mid ++ rest).map Node.id).Nodup →
      (∀ n ∈ pre ++ bn :: mid ++ rest, n.id < fr) →
      ∃ st', sweepLoop O fuel ⟨pre ++ bn :: mid ++ rest, fr⟩
          (some ((mid.getLast?.getD bn).id)) (some bn.id)
        = some (st', false, (mid.map Node.id).reverse) := by
  intro fuel
  induction fuel with
  | zero => intro mid pre rest bn fr hlen _ _; omega
  | succ fuel ih =>
    intro mid pre rest bn fr hlen hnodup hbelow
    rcases List.eq_nil_or_concat mid with rfl | ⟨mid', cur, rfl⟩
    · exact ⟨⟨pre ++ bn :: rest, fr⟩, by simp [sweepLoop]⟩
    · simp only [List.concat_eq_append] at hlen hnodup hbelow ⊢
      have hshape : pre ++ bn :: (mid' ++ [cur]) ++ rest
          = (pre ++ bn :: mid') ++ cur :: rest := by simp
      rw [hshape] at hnodup hbelow ⊢
      simp only [List.getLast?_concat, Option.getD_some]
      have hnd := hnodup
      rw [List.map_append, List.map_cons] at hnd
      have hmid := List.nodup_cons.mp (List.nodup_middle.mp hnd)
      have hne1 : ∀ n ∈ pre ++ bn :: mid', n.id ≠ cur.id := fun n hn hcontra =>
        hmid.1 (List.mem_append_left _ (hcontra ▸ List.mem_map_of_mem Node.id hn))
      have hne2 : ∀ n ∈ rest, n.id ≠ cur.id := fun n hn hcontra =>
        hmid.1 (List.mem_append_right _ (hcontra ▸ List.mem_map_of_mem Node.id hn))
      have hb1 : ∀ n ∈ pre ++ bn :: mid', n.id < fr := fun n hn =>
        hbelow n (List.mem_append_left _ hn)
      have hb2 : ∀ n ∈ rest, n.id < fr := fun n hn =>
        hbelow n (List.mem_append_right _ (List.mem_cons_of_mem cur hn))
      have hbcur : cur.id < fr :=
        hbelow cur (List.mem_append_right _ (List.mem_cons_self cur rest))
      obtain ⟨rep, fr', hsc, hrep⟩ :=
        scanNode_nomove_decomp O hO (pre ++ bn :: mid') rest cur fr hne1 hne2 hb1
      have hfind : ((pre ++ bn :: mid') ++ cur :: rest).find?
          (fun n => n.id = cur.id) = some cur := by
        rw [find?_append_none (pre ++ bn :: mid') (cur :: rest)
          (fun n hn => by simp [hne1 n hn])]
        simp [List.find?_cons]
      have hbnne : bn.id ≠ cur.id :=
        hne1 bn (List.mem_append_right _ (List.mem_cons_self bn mid'))
      have hcurbn : ¬ (cur.id = bn.id) := fun h => hbnne h.symm
      have hlast : lastIdD (pre ++ bn :: mid') none
          = some ((mid'.getLast?.getD bn).id) := by
        rw [lastIdD_append, lastIdD_cons_eq]
      have hlen' : mid'.length < fuel := by
        simp only [List.length_append, List.length_cons, List.length_nil] at hlen
        omega
      have hshape' : pre ++ bn :: mid' ++ rep :: rest
          = (pre ++ bn :: mid') ++ rep :: rest := by simp
      have hrepid : rep.id ∉ (pre ++ bn :: mid').map Node.id ++ rest.map Node.id := by
        rcases hrep with ⟨hr, _⟩ | ⟨hr, _⟩
        · rw [hr]; exact hmid.1
        · rw [hr]
          intro hmem
          rcases List.mem_append.mp hmem with hmem1 | hmem2
          · obtain ⟨n, hn, hid⟩ := List.mem_map.mp hmem1
            exact absurd hid (Nat.ne_of_lt (hb1 n hn))
          · obtain ⟨n, hn, hid⟩ := List.mem_map.mp hmem2
            exact absurd hid (Nat.ne_of_lt (hb2 n hn))
      have hnodup' : ((pre ++ bn :: mid' ++ rep :: rest).map Node.id).Nodup := by
        rw [hshape', List.map_append, List.map_cons]
        exact List.nodup_middle.mpr (List.nodup_cons.mpr ⟨hrepid, hmid.2⟩)
      have hfr' : fr ≤ fr' := by
        rcases hrep with ⟨_, h⟩ | ⟨_, h⟩ <;> omega
      have hrfr' : rep.id < fr' := by
        rcases hrep with ⟨h1, h2⟩ | ⟨h1, h2⟩
        · rw [h1, h2]; exact hbcur
        · rw [h1, h2]; omega
      have hbelow' : ∀ n ∈ pre ++ bn :: mid' ++ rep :: rest, n.id < fr' := by
        rw [hshape']
        intro n hn
        rcases List.mem_append.mp hn with h1 | h2
        · exact lt_of_lt_of_le (hb1 n h1) hfr'
        · rcases List.mem_cons.mp h2 with rfl | h3
          · exact hrfr'
          · exact lt_of_lt_of_le (hb2 n h3) hfr'
      obtain ⟨st', hst'⟩ := ih mid' pre (rep :: rest) bn fr' hlen' hnodup' hbelow'
      rw [hshape'] at hst'
      refine ⟨st', ?_⟩
      rw [hlast] at hsc
      simp only [List.append_assoc, List.cons_append] at hsc hst' hfind
      simp only [sweepLoop, Option.some.injEq, List.append_assoc, List.cons_append]
      rw [if_neg hcurbn]
      simp only [hfind, hsc, hst']
      simp

/-- C4 counterexample block: `c4X` differentiable, `c4S` side-effecting, `c4Y`
and `c4Z` differentiable. -/
def c4X : Node := .mk 1 (.Op 10) false true [50] [51] [] []

def c4S : Node := .mk 2 (.Op 11) true false [] [52] [] []

def c4Y : Node := .mk 3 (.Op 12) false true [] [53] [] []

def c4Z : Node := .mk 4 (.Op 13) false true [] [54] [] []

def c4Nodes : List Node := [c4X, c4S, c4Y, c4Z]

/-- An oracle that refuses every reorder, making every sweep merge-free. -/
def c4O : Oracles := ⟨fun _ _ => false, fun _ _ => false⟩

/-- Claim C4 (amended): (1) `buildWorkBlocks` emits a work block at a
side-effecting node iff the candidate count accumulated since the previous
boundary — a count that includes the side-effecting node itself — meets the
threshold, resets the count and moves the boundary at every side-effecting node
regardless, and flushes a final work block at the parameter node iff the
remaining count meets the threshold: the emitted blocks are exactly the
threshold-passing segments of the declarative backward segmentation.  (2) The
merge sweep of a work block `(b, e)` visits the half-open interval `(b, e]`:
its first `scanNode` call is on the end-bound node `e` itself (the previous
boundary), and for a merge-free sweep the visited nodes are exactly `e` and the
nodes strictly between `b` and `e`, in reverse block order — not the open
interval the claim states. -/
theorem workBlocks_emission_and_sweep_span :
    (∀ (minSize : Nat) (ns : List Node),
      buildWorkBlocks minSize ns =
        ((segmentsOf none [] ns.reverse).filter
            (fun s => minSize ≤ s.2.countP shouldConsiderForMerge)).map Prod.fst)
    ∧ (∀ (O : Oracles), (∀ a b, O.canMove a b = false) →
        ∀ (pre mid0 rest : List Node) (bn en : Node) (fr fuel : Nat),
          mid0.length + 1 < fuel →
          ((pre ++ bn :: mid0 ++ en :: rest).map Node.id).Nodup →
          (∀ n ∈ pre ++ bn :: mid0 ++ en :: rest, n.id < fr) →
          ∃ st', sweepLoop O fuel ⟨pre ++ bn :: mid0 ++ en :: rest, fr⟩
              (startCursor (pre ++ bn :: mid0 ++ en :: rest)
                (WorkBlock.mk (some bn.id) (some en.id)).wbEnd)
              (WorkBlock.mk (some bn.id) (some en.id)).wbBegin
            = some (st', false, ((mid0 ++ [en]).map Node.id).reverse)) := by
  constructor
  · exact buildWorkBlocks_eq_segments
  · intro O hO pre mid0 rest bn en fr fuel hlen hnodup hbelow
    have h := sweepLoop_span O hO fuel (mid0 ++ [en]) pre rest bn fr
      (by simpa using hlen) (by simpa using hnodup) (by simpa using hbelow)
    simpa [startCursor, List.getLast?_concat] using h

/-- Claim C4 counterexample: with threshold 1 on the block
`[c4X, c4S, c4Y, c4Z]`, `buildWorkBlocks` emits the work block bounded by the
parameter sentinel and the side-effecting node `c4S` for the head segment; the
merge sweep of that work block starts at the end bound `c4S` itself, so the
visited ids are `[2, 1]` — the side-effecting boundary node (id 2) followed by
`c4X` (id 1) — although the open interval strictly between the bounds contains
only `c4X`.  The sweep therefore visits a node outside the claimed open
interval. -/
theorem sweep_visits_end_bound_node :
    buildWorkBlocks 1 c4Nodes = [⟨some 2, none⟩, ⟨none, some 2⟩] ∧
    (sweepLoop c4O 10 ⟨c4Nodes, 100⟩ (startCursor c4Nodes (some 2)) none).map
        (fun r => (r.2.1, r.2.2)) = some (false, [2, 1]) ∧
    c4S.id = 2 ∧ c4S.sideEffects = true :=
  ⟨rfl, rfl, rfl, rfl⟩

/-!
## C2: the alias invariant established by `unfuseAliasedOutputs`

`CleanB` is the recursive alias-cleanliness predicate: every group node of a
block — and of every child block below it — has no aliased pair among its
boundary outputs and no boundary output aliasing a boundary input.  The
unfusing pass is proved to leave every block in this state (its fixed point
only terminates once a full sweep finds nothing to unmerge), and cleanup is
proved to collect only alias-clean groups from a clean tidy block.
-/

mutual

/-- If this node is a group, its boundary outputs contain no aliased pair and no
output aliasing a boundary input; and the same holds recursively for every group
in its child blocks. -/
def nodeClean (A : Nat → Nat → Bool) : Node → Bool
  | .mk _ k _ _ ins outs _ bs =>
    (if k = NodeKind.DifferentiableGraph then
       (firstAliasedPairIdx A outs).isNone &&
         (firstInputAliasedIdx A ins outs).isNone
     else true) && CleanBlocks A bs

/-- Every group of this block (and below its nodes' child blocks) is clean. -/
def CleanB (A : Nat → Nat → Bool) : List Node → Bool
  | [] => true
  | n :: rest => nodeClean A n && CleanB A rest

/-- Every group in these blocks is clean. -/
def CleanBlocks (A : Nat → Nat → Bool) : List Block → Bool
  | [] => true
  | b :: rest => CleanB A b && CleanBlocks A rest

end

theorem nodeClean_spec (A : Nat → Nat → Bool) (n : Node) :
    nodeClean A n = ((if n.kind = NodeKind.DifferentiableGraph then
        (firstAliasedPairIdx A n.outputs).isNone &&
          (firstInputAliasedIdx A n.inputs n.outputs).isNone
      else true) && CleanBlocks A n.blocks) := by
  cases n; rfl

theorem CleanB_iff_all (A : Nat → Nat → Bool) (ns : List Node) :
    CleanB A ns = true ↔ ∀ x ∈ ns, nodeClean A x = true := by
  induction ns with
  | nil => simp [CleanB]
  | cons n rest ih => simp [CleanB, ih]

theorem CleanBlocks_iff_all (A : Nat → Nat → Bool) (bs : List Block) :
    CleanBlocks A bs = true ↔ ∀ b ∈ bs, CleanB A b = true := by
  induction bs with
  | nil => simp [CleanBlocks]
  | cons b rest ih => simp [CleanBlocks, ih]

/-- The two alias-freedom facts of a clean group node. -/
theorem nodeClean_parts (A : Nat → Nat → Bool) (n : Node)
    (h : nodeClean A n = true) :
    CleanBlocks A n.blocks = true ∧
    (isGroup n = true → firstAliasedPairIdx A n.outputs = none ∧
      firstInputAliasedIdx A n.inputs n.outputs = none) := by
  rw [nodeClean_spec] at h
  simp only [Bool.and_eq_true] at h
  refine ⟨h.2, ?_⟩
  intro hg
  have hkind : n.kind = NodeKind.DifferentiableGraph := by simpa [isGroup] using hg
  have h1 := h.1
  rw [if_pos hkind, Bool.and_eq_true, Option.isNone_iff_eq_none,
    Option.isNone_iff_eq_none] at h1
  exact h1

/-- Group-free structure is trivially clean. -/
theorem groupFree_imp_clean (A : Nat → Nat → Bool) :
    ∀ (k : Nat),
      (∀ n : Node, sizeOf n ≤ k → nodeGroupFree n = true → nodeClean A n = true) ∧
      (∀ ns : List Node, sizeOf ns ≤ k → GroupFreeDeep ns = true →
        CleanB A ns = true) ∧
      (∀ bs : List Block, sizeOf bs ≤ k → GroupFreeBlocks bs = true →
        CleanBlocks A bs = true) := by
  intro k
  induction k using Nat.strong_induction_on with
  | _ k ih =>
    refine ⟨?_, ?_, ?_⟩
    · intro n hk h
      rw [nodeGroupFree_spec, Bool.and_eq_true, Bool.and_eq_true] at h
      rw [nodeClean_spec]
      have hng : n.kind ≠ NodeKind.DifferentiableGraph := by
        have := h.1.1
        simpa [isGroup] using this
      rw [if_neg hng, Bool.true_and]
      have hblt : sizeOf n.blocks < sizeOf n := by
        cases n
        simp
        try omega
      exact (ih (sizeOf n.blocks) (by omega)).2.2 n.blocks (by omega) h.2
    · intro ns hk h
      cases ns with
      | nil => rfl
      | cons n rest =>
        simp only [GroupFreeDeep, Bool.and_eq_true] at h
        have hsz : sizeOf (n :: rest) = 1 + sizeOf n + sizeOf rest := by simp
        simp only [CleanB, Bool.and_eq_true]
        constructor
        · exact (ih (sizeOf n) (by omega)).1 n (by omega) h.1
        · exact (ih (sizeOf rest) (by omega)).2.1 rest (by omega) h.2
    · intro bs hk h
      cases bs with
      | nil => rfl
      | cons b rest =>
        simp only [GroupFreeBlocks, Bool.and_eq_true] at h
        have hsz : sizeOf (b :: rest) = 1 + sizeOf b + sizeOf rest := by simp
        simp only [CleanBlocks, Bool.and_eq_true]
        constructor
        · exact (ih (sizeOf b) (by omega)).2.1 b (by omega) h.1
        · exact (ih (sizeOf rest) (by omega)).2.2 rest (by omega) h.2

/-- When the scan for an aliased output pair finds nothing, no two boundary
outputs may alias each other (in either direction). -/
theorem firstAliasedPairIdx_none (A : Nat → Nat → Bool) (outs : List Nat)
    (h : firstAliasedPairIdx A outs = none) :
    outs.Pairwise (fun a b => A a b = false ∧ A b a = false) := by
  rw [List.pairwise_iff_get]
  intro i j hij
  have hj := List.find?_eq_none.mp h j.1 (List.mem_range.mpr j.2)
  by_contra hcon
  apply hj
  rw [List.any_eq_true]
  refine ⟨i.1, List.mem_range.mpr hij, ?_⟩
  rw [List.get?_eq_get i.2, List.get?_eq_get j.2]
  simp only [not_and_or, Bool.not_eq_false] at hcon
  rcases hcon with hx | hx
  · simp only [List.get_eq_getElem] at hx
    simp [hx]
  · simp only [List.get_eq_getElem] at hx
    simp [hx]

/-- When the scan for an output aliasing an input finds nothing, no boundary
output may alias any boundary input (in either direction). -/
theorem firstInputAliasedIdx_none (A : Nat → Nat → Bool) (ins outs : List Nat)
    (h : firstInputAliasedIdx A ins outs = none) :
    ∀ o ∈ outs, ∀ i ∈ ins, A o i = false ∧ A i o = false := by
  intro o ho i hi
  obtain ⟨j, hoj⟩ := List.mem_iff_get.mp ho
  have hj := List.find?_eq_none.mp h j.1 (List.mem_range.mpr j.2)
  rw [List.get?_eq_get j.2, Fin.eta, hoj] at hj
  by_contra hcon
  apply hj
  rw [List.any_eq_true]
  refine ⟨i, hi, ?_⟩
  simp only [not_and_or, Bool.not_eq_false] at hcon
  rcases hcon with hx | hx
  · simp [hx]
  · simp [hx]

theorem unmergeAliasedOutputs_false (A : Nat → Nat → Bool) (n : Node)
    (h : (unmergeAliasedOutputs A n).2 = false) :
    firstAliasedPairIdx A n.outputs = none ∧ (unmergeAliasedOutputs A n).1 = n := by
  unfold unmergeAliasedOutputs at h ⊢
  cases hf : firstAliasedPairIdx A n.outputs with
  | some j => rw [hf] at h; simp at h
  | none => exact ⟨rfl, rfl⟩

theorem unmergeOutputsAlisingInputs_false (A : Nat → Nat → Bool) (n : Node)
    (h : (unmergeOutputsAlisingInputs A n).2 = false) :
    firstInputAliasedIdx A n.inputs n.outputs = none ∧
      (unmergeOutputsAlisingInputs A n).1 = n := by
  unfold unmergeOutputsAlisingInputs at h ⊢
  cases hf : firstInputAliasedIdx A n.inputs n.outputs with
  | some j => rw [hf] at h; simp at h
  | none => exact ⟨rfl, rfl⟩

/-- A sweep that reports no change changed nothing, and every group it visited
has scanned clean: no aliased output pair and no output aliasing an input. -/
theorem unfusePass_false_spec (A : Nat → Nat → Bool) :
    ∀ (ns : List Node), (unfusePass A ns).2 = false →
      (unfusePass A ns).1 = ns ∧
      ∀ n ∈ ns, isGroup n = true →
        firstAliasedPairIdx A n.outputs = none ∧
        firstInputAliasedIdx A n.inputs n.outputs = none := by
  intro ns
  induction ns with
  | nil => intro _; exact ⟨rfl, by simp⟩
  | cons n rest ih =>
    intro h
    by_cases hg : isGroup n = true
    · simp only [unfusePass, hg, if_true, Bool.or_eq_false_iff] at h ⊢
      obtain ⟨⟨hr, h1⟩, h2⟩ := h
      obtain ⟨hf1, he1⟩ := unmergeAliasedOutputs_false A n h1
      rw [he1] at h2
      obtain ⟨hf2, he2⟩ := unmergeOutputsAlisingInputs_false A n h2
      obtain ⟨hrest, hall⟩ := ih hr
      refine ⟨?_, ?_⟩
      · rw [he1, he2, hrest]
      · intro m hm hmg
        rcases List.mem_cons.mp hm with rfl | hmem
        · exact ⟨hf1, hf2⟩
        · exact hall m hmem hmg
    · simp only [unfusePass, hg, Bool.false_eq_true, if_false] at h ⊢
      obtain ⟨hrest, hall⟩ := ih h
      refine ⟨by rw [hrest], ?_⟩
      intro m hm hmg
      rcases List.mem_cons.mp hm with rfl | hmem
      · exact absurd hmg hg
      · exact hall m hmem hmg

/-- The fixed point of the unfusing sweeps only terminates when a full sweep
reports no change, at which point every block-level group is alias-clean. -/
theorem unfuseFixpoint_spec (A : Nat → Nat → Bool) :
    ∀ (fuel : Nat) (ns ns1 : List Node), unfuseFixpoint A fuel ns = some ns1 →
      ∀ n ∈ ns1, isGroup n = true →
        firstAliasedPairIdx A n.outputs = none ∧
        firstInputAliasedIdx A n.inputs n.outputs = none := by
  intro fuel
  induction fuel with
  | zero => intro ns ns1 h; cases h
  | succ fuel ih =>
    intro ns ns1 h
    simp only [unfuseFixpoint] at h
    cases hflag : (unfusePass A ns).2 with
    | true =>
      rw [hflag, if_pos rfl] at h
      exact ih _ _ h
    | false =>
      rw [hflag, if_neg Bool.false_ne_true] at h
      obtain rfl : (unfusePass A ns).1 = ns1 := by
        injection h
      obtain ⟨heq, hall⟩ := unfusePass_false_spec A ns hflag
      intro m hm
      exact hall m (heq ▸ hm)

/-- `unfuseBlocks` on an empty block list returns the empty block list. -/
theorem unfuseBlocks_nil (A : Nat → Nat → Bool) (fuel : Nat) (bs : List Block)
    (h : unfuseBlocks A fuel [] = some bs) : bs = [] := by
  cases fuel with
  | zero => cases h
  | succ fuel =>
    simp only [unfuseBlocks] at h
    exact (Option.some.inj h).symm

/-- After the unfusing pass, every group of the block — and of every child block
below it, recursively — is alias-clean. -/
theorem unfuse_clean_all (A : Nat → Nat → Bool) : ∀ fuel : Nat,
    (∀ ns ns', unfuseAliasedOutputs A fuel ns = some ns' → CleanB A ns' = true)
    ∧ (∀ ns ns', unfuseChildren A fuel ns = some ns' →
        (∀ n ∈ ns, isGroup n = true → firstAliasedPairIdx A n.outputs = none ∧
          firstInputAliasedIdx A n.inputs n.outputs = none) →
        CleanB A ns' = true)
    ∧ (∀ bs bs', unfuseBlocks A fuel bs = some bs' → CleanBlocks A bs' = true) := by
  intro fuel
  induction fuel with
  | zero =>
    exact ⟨fun ns ns' h => Option.noConfusion h,
      fun ns ns' h => Option.noConfusion h,
      fun bs bs' h => Option.noConfusion h⟩
  | succ fuel ih =>
    refine ⟨?_, ?_, ?_⟩
    · intro ns ns' h
      simp only [unfuseAliasedOutputs, Option.bind_eq_bind] at h
      cases hfx : unfuseFixpoint A (fuel + 1) ns with
      | none => rw [hfx] at h; cases h
      | some ns1 =>
        rw [hfx, Option.some_bind] at h
        exact ih.2.1 ns1 ns' h (unfuseFixpoint_spec A (fuel + 1) ns ns1 hfx)
    · intro ns ns' h hfacts
      cases ns with
      | nil =>
        simp only [unfuseChildren] at h
        obtain rfl : ([] : List Node) = ns' := by injection h
        rfl
      | cons n rest =>
        simp only [unfuseChildren, Option.bind_eq_bind] at h
        cases hb : unfuseBlocks A fuel n.blocks with
        | none => rw [hb] at h; cases h
        | some bs =>
          rw [hb, Option.some_bind] at h
          cases hr : unfuseChildren A fuel rest with
          | none => rw [hr] at h; cases h
          | some rest' =>
            rw [hr, Option.some_bind] at h
            obtain rfl : n.setBlocks bs :: rest' = ns' := by
              simpa using h
            simp only [CleanB, Bool.and_eq_true]
            constructor
            · rw [nodeClean_spec]
              simp only [Node.kind_setBlocks, Node.inputs_setBlocks,
                Node.outputs_setBlocks, Node.blocks_setBlocks, Bool.and_eq_true]
              refine ⟨?_, ih.2.2 n.blocks bs hb⟩
              by_cases hg : n.kind = NodeKind.DifferentiableGraph
              · rw [if_pos hg]
                obtain ⟨h1, h2⟩ := hfacts n (by simp) (by simp [isGroup, hg])
                simp [h1, h2]
              · rw [if_neg hg]
            · exact ih.2.1 rest rest' hr
                (fun m hm => hfacts m (List.mem_cons_of_mem n hm))
    · intro bs bs' h
      cases bs with
      | nil =>
        obtain rfl : ([] : List Block) = bs' := by
          cases fuel <;> simpa [unfuseBlocks] using h
        rfl
      | cons b rest =>
        simp only [unfuseBlocks, Option.bind_eq_bind] at h
        cases hb : unfuseAliasedOutputs A fuel b with
        | none => rw [hb] at h; cases h
        | some b' =>
          rw [hb, Option.some_bind] at h
          cases hr : unfuseBlocks A fuel rest with
          | none => rw [hr] at h; cases h
          | some rest' =>
            rw [hr, Option.some_bind] at h
            obtain rfl : (b' :: rest' : List Block) = bs' := by simpa using h
            simp only [CleanBlocks, Bool.and_eq_true]
            exact ⟨ih.1 b b' hb, ih.2.2 rest rest' hr⟩

/-- `nodeTidy` ignores the boundary outputs. -/
theorem nodeTidy_setOutputs (n : Node) (os : List Nat) :
    nodeTidy (n.setOutputs os) = nodeTidy n := by
  cases n; rfl

theorem unmergeAliasedOutputs_tidy (A : Nat → Nat → Bool) (n : Node) :
    nodeTidy (unmergeAliasedOutputs A n).1 = nodeTidy n := by
  unfold unmergeAliasedOutputs
  cases firstAliasedPairIdx A n.outputs with
  | some j => simp [nodeTidy_setOutputs]
  | none => rfl

theorem unmergeOutputsAlisingInputs_tidy (A : Nat → Nat → Bool) (n : Node) :
    nodeTidy (unmergeOutputsAlisingInputs A n).1 = nodeTidy n := by
  unfold unmergeOutputsAlisingInputs
  cases firstInputAliasedIdx A n.inputs n.outputs with
  | some j => simp [nodeTidy_setOutputs]
  | none => rfl

/-- A sweep of the unfuser only drops boundary outputs, so it keeps the block
tidy. -/
theorem unfusePass_tidy (A : Nat → Nat → Bool) :
    ∀ ns, TidyB ns = true → TidyB (unfusePass A ns).1 = true := by
  intro ns
  induction ns with
  | nil => intro _; rfl
  | cons n rest ih =>
    intro ht
    simp only [TidyB, Bool.and_eq_true] at ht
    by_cases hg : isGroup n = true
    · simp only [unfusePass, hg, if_true, TidyB, Bool.and_eq_true]
      refine ⟨?_, ih ht.2⟩
      rw [unmergeOutputsAlisingInputs_tidy, unmergeAliasedOutputs_tidy]
      exact ht.1
    · simp only [unfusePass, hg, Bool.false_eq_true, if_false, TidyB,
        Bool.and_eq_true]
      exact ⟨ht.1, ih ht.2⟩

theorem unfuseFixpoint_tidy (A : Nat → Nat → Bool) :
    ∀ (fuel : Nat) (ns ns1 : List Node), TidyB ns = true →
      unfuseFixpoint A fuel ns = some ns1 → TidyB ns1 = true := by
  intro fuel
  induction fuel with
  | zero => intro ns ns1 _ h; cases h
  | succ fuel ih =>
    intro ns ns1 ht h
    simp only [unfuseFixpoint] at h
    cases hflag : (unfusePass A ns).2 with
    | true =>
      rw [hflag, if_pos rfl] at h
      exact ih _ _ (unfusePass_tidy A ns ht) h
    | false =>
      rw [hflag, if_neg Bool.false_ne_true] at h
      obtain rfl : (unfusePass A ns).1 = ns1 := by injection h
      exact unfusePass_tidy A ns ht

/-- The whole unfuser keeps the graph tidy. -/
theorem unfuse_tidy_all (A : Nat → Nat → Bool) : ∀ fuel : Nat,
    (∀ ns ns', TidyB ns = true → unfuseAliasedOutputs A fuel ns = some ns' →
      TidyB ns' = true)
    ∧ (∀ ns ns', TidyB ns = true → unfuseChildren A fuel ns = some ns' →
      TidyB ns' = true)
    ∧ (∀ bs bs', TidyBlocks bs = true → unfuseBlocks A fuel bs = some bs' →
      TidyBlocks bs' = true) := by
  intro fuel
  induction fuel with
  | zero =>
    exact ⟨fun ns ns' _ h => Option.noConfusion h,
      fun ns ns' _ h => Option.noConfusion h,
      fun bs bs' _ h => Option.noConfusion h⟩
  | succ fuel ih =>
    refine ⟨?_, ?_, ?_⟩
    · intro ns ns' ht h
      simp only [unfuseAliasedOutputs, Option.bind_eq_bind] at h
      cases hfx : unfuseFixpoint A (fuel + 1) ns with
      | none => rw [hfx] at h; cases h
      | some ns1 =>
        rw [hfx, Option.some_bind] at h
        exact ih.2.1 ns1 ns' (unfuseFixpoint_tidy A (fuel + 1) ns ns1 ht hfx) h
    · intro ns ns' ht h
      cases ns with
      | nil =>
        simp only [unfuseChildren] at h
        obtain rfl : ([] : List Node) = ns' := by injection h
        rfl
      | cons n rest =>
        simp only [TidyB, Bool.and_eq_true] at ht
        simp only [unfuseChildren, Option.bind_eq_bind] at h
        cases hb : unfuseBlocks A fuel n.blocks with
        | none => rw [hb] at h; cases h
        | some bs =>
          rw [hb, Option.some_bind] at h
          cases hr : unfuseChildren A fuel rest with
          | none => rw [hr] at h; cases h
          | some rest' =>
            rw [hr, Option.some_bind] at h
            obtain rfl : n.setBlocks bs :: rest' = ns' := by simpa using h
            obtain ⟨htb, hgp⟩ := nodeTidy_parts n ht.1
            simp only [TidyB, Bool.and_eq_true]
            refine ⟨?_, ih.2.1 rest rest' ht.2 hr⟩
            rw [nodeTidy_spec]
            simp only [Node.kind_setBlocks, Node.subgraph_setBlocks,
              Node.blocks_setBlocks, Bool.and_eq_true]
            refine ⟨?_, ih.2.2 n.blocks bs htb hb⟩
            by_cases hg : n.kind = NodeKind.DifferentiableGraph
            · rw [if_pos hg]
              obtain ⟨hsub, hempty⟩ := hgp (by simp [isGroup, hg])
              obtain rfl : bs = [] := unfuseBlocks_nil A fuel bs (hempty ▸ hb)
              simp [hsub]
            · rw [if_neg hg]
    · intro bs bs' ht h
      cases bs with
      | nil =>
        obtain rfl : ([] : List Block) = bs' := by
          cases fuel <;> simpa [unfuseBlocks] using h
        rfl
      | cons b rest =>
        simp only [TidyBlocks, Bool.and_eq_true] at ht
        simp only [unfuseBlocks, Option.bind_eq_bind] at h
        cases hb : unfuseAliasedOutputs A fuel b with
        | none => rw [hb] at h; cases h
        | some b' =>
          rw [hb, Option.some_bind] at h
          cases hr : unfuseBlocks A fuel rest with
          | none => rw [hr] at h; cases h
          | some rest' =>
            rw [hr, Option.some_bind] at h
            obtain rfl : (b' :: rest' : List Block) = bs' := by simpa using h
            simp only [TidyBlocks, Bool.and_eq_true]
            exact ⟨ih.1 b b' ht.1 hb, ih.2.2 rest rest' ht.2 hr⟩

/-- The alias invariant of a single finalized group: it is a group node, no two
of its boundary outputs may alias, and no boundary output may alias a boundary
input. -/
def aliasCleanGroup (A : Nat → Nat → Bool) (g : Node) : Prop :=
  isGroup g = true ∧ firstAliasedPairIdx A g.outputs = none ∧
    firstInputAliasedIdx A g.inputs g.outputs = none

/-- The block-level cleanup keeps a tidy clean block alias-clean and collects
only alias-clean groups. -/
theorem cleanupBlock_clean (A : Nat → Nat → Bool) (minSize : Nat) :
    ∀ ns, TidyB ns = true → CleanB A ns = true →
      CleanB A (cleanupBlock minSize ns).1 = true ∧
      ∀ g ∈ (cleanupBlock minSize ns).2, aliasCleanGroup A g := by
  intro ns
  induction ns with
  | nil => intro _ _; exact ⟨rfl, by simp [cleanupBlock]⟩
  | cons n rest ih =>
    intro ht hc
    simp only [TidyB, Bool.and_eq_true] at ht
    simp only [CleanB, Bool.and_eq_true] at hc
    obtain ⟨htn, htr⟩ := ht
    obtain ⟨hcn, hcr⟩ := hc
    obtain ⟨ih1, ih2⟩ := ih htr hcr
    by_cases hgr : isGroup n = true
    · obtain ⟨htbl, hgrp⟩ := nodeTidy_parts n htn
      obtain ⟨hsubfree, hbem⟩ := hgrp hgr
      have hcse : GroupFreeDeep (cseList n.outputs n.subgraph) = true :=
        cseList_groupFree _ _ hsubfree
      obtain ⟨hcbl, hgfacts⟩ := nodeClean_parts A n hcn
      have hkind : n.kind = NodeKind.DifferentiableGraph := by
        simpa [isGroup] using hgr
      by_cases hsm : inlineIfTooSmall minSize (cseList n.outputs n.subgraph) = true
      · simp only [cleanupBlock, hgr, if_true, Node.subgraph_setSubgraph, hsm]
        constructor
        · rw [CleanB_iff_all]
          intro x hx
          rcases List.mem_append.mp hx with hx1 | hx1
          · have hgf := (GroupFreeDeep_iff_all _).mp hcse x hx1
            exact (groupFree_imp_clean A (sizeOf x)).1 x (le_refl _) hgf
          · exact (CleanB_iff_all A _).mp ih1 x hx1
        · exact ih2
      · simp only [Bool.not_eq_true] at hsm
        simp only [cleanupBlock, hgr, if_true, Node.subgraph_setSubgraph, hsm,
          Bool.false_eq_true, if_false]
        have hfacts := hgfacts hgr
        constructor
        · rw [CleanB_iff_all]
          intro x hx
          rcases List.mem_cons.mp hx with rfl | hx1
          · rw [nodeClean_spec]
            simp only [Node.kind_setSubgraph, Node.inputs_setSubgraph,
              Node.outputs_setSubgraph, Node.blocks_setSubgraph]
            rw [if_pos hkind]
            simp [hfacts.1, hfacts.2, hcbl]
          · exact (CleanB_iff_all A _).mp ih1 x hx1
        · intro g hg
          rcases List.mem_append.mp hg with hg1 | hg1
          · exact ih2 g hg1
          · have hgeq := List.mem_singleton.mp hg1
            subst hgeq
            refine ⟨by simpa using hgr, ?_, ?_⟩
            · simpa using hfacts.1
            · simpa using hfacts.2
    · simp only [Bool.not_eq_true] at hgr
      simp only [cleanupBlock, hgr, Bool.false_eq_true, if_false]
      constructor
      · rw [CleanB_iff_all]
        intro x hx
        rcases List.mem_cons.mp hx with rfl | hx1
        · exact hcn
        · exact (CleanB_iff_all A _).mp ih1 x hx1
      · exact ih2

/-- From a tidy, alias-clean graph, cleanup only collects alias-clean groups, at
every block level. -/
theorem cleanup_clean_all (A : Nat → Nat → Bool) (minSize : Nat) :
    ∀ fuel : Nat,
      (∀ ns res, TidyB ns = true → CleanB A ns = true →
        cleanupSubgraphs minSize fuel ns = some res →
        ∀ g ∈ res.2, aliasCleanGroup A g) ∧
      (∀ ns res, TidyB ns = true → CleanB A ns = true →
        cleanupChildren minSize fuel ns = some res →
        ∀ g ∈ res.2, aliasCleanGroup A g) ∧
      (∀ bs res, TidyBlocks bs = true → CleanBlocks A bs = true →
        cleanupBlocks minSize fuel bs = some res →
        ∀ g ∈ res.2, aliasCleanGroup A g) := by
  intro fuel
  induction fuel with
  | zero =>
    refine ⟨fun _ _ _ _ h => ?_, fun _ _ _ _ h => ?_, fun _ _ _ _ h => ?_⟩ <;>
      cases h
  | succ fuel ih =>
    obtain ⟨ih1, ih2, ih3⟩ := ih
    refine ⟨?_, ?_, ?_⟩
    · intro ns res ht hc h
      simp only [cleanupSubgraphs] at h
      cases hcc : cleanupChildren minSize fuel (cleanupBlock minSize ns).1 with
      | none => rw [hcc] at h; cases h
      | some rc =>
        rw [hcc] at h
        have hres : res = (rc.1, (cleanupBlock minSize ns).2 ++ rc.2) :=
          (Option.some.inj h).symm
        subst hres
        obtain ⟨_, htidy1⟩ := cleanupBlock_order minSize ns ht
        obtain ⟨hclean1, hcoll⟩ := cleanupBlock_clean A minSize ns ht hc
        intro g hg
        rcases List.mem_append.mp hg with hg1 | hg1
        · exact hcoll g hg1
        · exact ih2 _ rc htidy1 hclean1 hcc g hg1
    · intro ns res ht hc h
      cases ns with
      | nil =>
        have hres : res = ([], []) := by simpa [cleanupChildren] using h.symm
        subst hres
        intro g hg
        cases hg
      | cons n rest =>
        simp only [TidyB, Bool.and_eq_true] at ht
        simp only [CleanB, Bool.and_eq_true] at hc
        obtain ⟨htn, htr⟩ := ht
        obtain ⟨hcn, hcr⟩ := hc
        cases hb : cleanupBlocks minSize fuel n.blocks with
        | none => simp [cleanupChildren, hb] at h
        | some rb =>
          cases hr : cleanupChildren minSize fuel rest with
          | none => simp [cleanupChildren, hb, hr] at h
          | some rr =>
            simp only [cleanupChildren, hb, hr, Option.bind_eq_bind,
              Option.some_bind, Option.pure_def, Option.some.injEq] at h
            subst h
            obtain ⟨htbl, _⟩ := nodeTidy_parts n htn
            obtain ⟨hcbl, _⟩ := nodeClean_parts A n hcn
            intro g hg
            rcases List.mem_append.mp hg with hg1 | hg1
            · exact ih3 n.blocks rb htbl hcbl hb g hg1
            · exact ih2 rest rr htr hcr hr g hg1
    · intro bs res ht hc h
      cases bs with
      | nil =>
        have hres : res = ([], []) := by simpa [cleanupBlocks] using h.symm
        subst hres
        intro g hg
        cases hg
      | cons b rest =>
        simp only [TidyBlocks, Bool.and_eq_true] at ht
        simp only [CleanBlocks, Bool.and_eq_true] at hc
        obtain ⟨htb, htr⟩ := ht
        obtain ⟨hcb, hcr⟩ := hc
        cases hb : cleanupSubgraphs minSize fuel b with
        | none => simp [cleanupBlocks, hb] at h
        | some rb =>
          cases hr : cleanupBlocks minSize fuel rest with
          | none => simp [cleanupBlocks, hb, hr] at h
          | some rr =>
            simp only [cleanupBlocks, hb, hr, Option.bind_eq_bind,
              Option.some_bind, Option.pure_def, Option.some.injEq] at h
            subst h
            intro g hg
            rcases List.mem_append.mp hg with hg1 | hg1
            · exact ih1 b rb htb hcb hb g hg1
            · exact ih3 rest rr htr hcr hr g hg1

/-- Claim C2: for every finalized group node collected into the output, no two
of its subgraph boundary outputs may alias each other and no boundary output may
alias one of the subgraph's boundary inputs.  `unfuseAliasedOutputs` establishes
the invariant — its per-block fixed point only terminates when a full sweep of
both unmerge operations reports no change, leaving every group at every block
level alias-clean (`CleanB`) — and it runs before Cleanup finalizes any group;
Cleanup (on the tidy graphs the builder produces) carries the invariant into
every group it collects. -/
theorem unfuse_alias_invariant (A : Nat → Nat → Bool) (fuel minSize fuel2 : Nat)
    (ns ns' : List Node) (res : List Node × List Node)
    (htidy : TidyB ns = true)
    (hunfuse : unfuseAliasedOutputs A fuel ns = some ns')
    (hcleanup : cleanupSubgraphs minSize fuel2 ns' = some res) :
    CleanB A ns' = true ∧
    ∀ g ∈ res.2, isGroup g = true ∧
      g.outputs.Pairwise (fun a b => A a b = false ∧ A b a = false) ∧
      (∀ o ∈ g.outputs, ∀ i ∈ g.inputs, A o i = false ∧ A i o = false) := by
  have hclean := (unfuse_clean_all A fuel).1 ns ns' hunfuse
  have htidy' := (unfuse_tidy_all A fuel).1 ns ns' htidy hunfuse
  refine ⟨hclean, ?_⟩
  intro g hg
  obtain ⟨hgrp, h1, h2⟩ :=
    (cleanup_clean_all A minSize fuel2).1 ns' res htidy' hclean hcleanup g hg
  exact ⟨hgrp, firstAliasedPairIdx_none A g.outputs h1,
    firstInputAliasedIdx_none A g.inputs g.outputs h2⟩

/-- The no-alias oracle used by the concrete C2 witness. -/
def c2NoAlias : Nat → Nat → Bool := fun _ _ => false

/-- Witness for `unfuse_alias_invariant` on the concrete pipeline scenario. -/
theorem unfuse_alias_invariant_witness :
    (TidyB [scenA, scenB, scenGroup] = true ∧
     unfuseAliasedOutputs c2NoAlias 10 [scenA, scenB, scenGroup]
       = some [scenA, scenB, scenGroup] ∧
     cleanupSubgraphs 2 10 [scenA, scenB, scenGroup]
       = some ([scenA, scenB, scenGroup], [scenGroup])) ∧
    (CleanB c2NoAlias [scenA, scenB, scenGroup] = true ∧
     ∀ g ∈ (([scenA, scenB, scenGroup], [scenGroup]) :
         List Node × List Node).2, isGroup g = true ∧
       g.outputs.Pairwise
         (fun a b => c2NoAlias a b = false ∧ c2NoAlias b a = false) ∧
       (∀ o ∈ g.outputs, ∀ i ∈ g.inputs,
         c2NoAlias o i = false ∧ c2NoAlias i o = false)) :=
  ⟨⟨by simp [TidyB, nodeTidy, scenA, scenB, scenGroup, scenC, scenD,
      GroupFreeDeep, nodeGroupFree, GroupFreeBlocks, TidyBlocks], rfl, rfl⟩,
   unfuse_alias_invariant c2NoAlias 10 2 10 [scenA, scenB, scenGroup]
     [scenA, scenB, scenGroup] ([scenA, scenB, scenGroup], [scenGroup])
     (by simp [TidyB, nodeTidy, scenA, scenB, scenGroup, scenC, scenD,
       GroupFreeDeep, nodeGroupFree, GroupFreeBlocks, TidyBlocks])
     rfl rfl⟩

end AutodiffSubgraphs
